import Mathlib

/-!
# Verification of the Mall indoor-map navigation core (`src/app.js`)

This file gives a shallow embedding, in Lean 4, of the route-finding and
multi-floor path-rendering subsystem of `app.js`:

* location-name resolution (`findNodeByName`, app.js:527-556),
* breadth-first path search (`findPath`, app.js:489-524),
* the floor/feature visibility filter (`updateFloorFilter`, app.js:1282-1354),
* the geometry preprocessor (`addFloorplanLayers`, app.js:229-251),
* haversine distance and walking-time metrics (app.js:626-692),
* floor-run segmentation and vertical-transition detection (app.js:918-954),
* the animation distance model and sampler (app.js:1188-1231, 1059-1089).

JavaScript numbers are modelled as `ℝ` (integer-valued fields such as floor
indices as `ℤ`), strings as Lean `String`/`List Char`, and JavaScript's
`null`/`undefined` via `Option`.  Functions are transliterated from the
source; every definition cites the line range it embeds.
-/

namespace Mall

/-! ## Strings: the semantics of the JavaScript string operations used

`name.toLowerCase().replace(/[^a-z0-9]/g, "")` and `String.prototype.includes`
are modelled on `List Char`. -/

/-- `true` for the characters kept by the regex class `[a-z0-9]`. -/
def isLowerAlnum (c : Char) : Bool :=
  ('a' ≤ c && c ≤ 'z') || ('0' ≤ c && c ≤ '9')

/-- `s.toLowerCase().replace(/[^a-z0-9]/g, "")` (app.js:528, 532, 539). -/
def normalize (s : List Char) : List Char :=
  (s.map Char.toLower).filter isLowerAlnum

/-- `hay.includes needle = true` iff `needle` occurs contiguously in `hay`;
the semantics of JavaScript `String.prototype.includes` (app.js:533, 540). -/
def includesList (hay needle : List Char) : Bool :=
  match hay with
  | [] => needle.isEmpty
  | _ :: t => needle.isPrefixOf hay || includesList t needle

/-- `nodeId.replace(/^[gf]\d?_/, "")` (app.js:539): strip one leading
`g_`, `f_`, `g<digit>_` or `f<digit>_` segment, if present. -/
def stripFloorPrefix (s : List Char) : List Char :=
  match s with
  | c :: '_' :: t => if c = 'g' ∨ c = 'f' then t else s
  | c :: d :: '_' :: t => if (c = 'g' ∨ c = 'f') ∧ d.isDigit then t else s
  | _ => s

/-! ## Navigation graph data model

`navGraph = { nodes: {id: {coords, floor}}, edges: [[id, id], ...] }` as
loaded in `init` (app.js:111) and described by the spec's data model.
`Object.entries(navGraph.nodes)` exposes insertion order, so the node
mapping is embedded as an association list. -/

/-- A navigation-graph node: `{coords: [lng, lat], floor}`. -/
structure NavNode where
  coords : ℝ × ℝ
  floor : ℤ
deriving Inhabited

/-- The navigation graph: node mapping (in `Object.entries` order) and the
edge list. -/
structure NavGraph where
  nodes : List (String × NavNode)
  edges : List (String × String)

/-- A feature as consulted by `findNodeByName`'s fallback (app.js:546-553)
and by `calculateNavigation` (app.js:573-582): only `properties.name` and
`properties.level` are read. -/
structure NamedFeature where
  name : Option String
  level : ℤ

/-! ## Location resolver: `findNodeByName` (app.js:527-556) -/

/-- The plain bidirectional-substring test of app.js:532-533:
`nodeIdClean.includes(nameLower) || nameLower.includes(nodeIdClean)` where
both strings have been normalized. -/
def plainMatch (nameLower : List Char) (nodeId : String) : Bool :=
  let nodeIdClean := normalize nodeId.data
  includesList nodeIdClean nameLower || includesList nameLower nodeIdClean

/-- The prefix-stripped test of app.js:539-540: strip `/^[gf]\d?_/` from the
raw id, normalize, and accept a bidirectional-substring match only when the
stripped id has length ≥ 3. -/
def strippedMatch (nameLower : List Char) (nodeId : String) : Bool :=
  let w := normalize (stripFloorPrefix nodeId.data)
  decide (3 ≤ w.length) && (includesList nameLower w || includesList w nameLower)

/-- The `for (const [nodeId, node] of Object.entries(navGraph.nodes))` loop of
app.js:530-543: for each node, first the plain test, then the prefix-stripped
test; the first hit returns. -/
def findNodeLoop (nameLower : List Char) : List (String × NavNode) → Option String
  | [] => none
  | (nodeId, _) :: rest =>
    if plainMatch nameLower nodeId then some nodeId
    else if strippedMatch nameLower nodeId then some nodeId
    else findNodeLoop nameLower rest

/-- The fallback of app.js:545-553: find a feature whose `properties.name`
equals the input exactly and return the hard-coded walkway-center id for its
floor (falling through to `null` for any other floor). -/
def fallbackNode (feats : List NamedFeature) (name : String) : Option String :=
  match feats.find? (fun f => f.name = some name) with
  | some f =>
    if f.level = 0 then some "g_walkway_center"
    else if f.level = 1 then some "f1_walkway_center"
    else if f.level = 2 then some "f2_walkway_center"
    else none
  | none => none

/-- `findNodeByName(name)` (app.js:527-556). -/
def findNodeByName (g : NavGraph) (feats : List NamedFeature) (name : String) :
    Option String :=
  let nameLower := normalize name.data
  match findNodeLoop nameLower g.nodes with
  | some nodeId => some nodeId
  | none => fallbackNode feats name


/-! ## Path search: `findPath` (app.js:489-524)

The BFS works over a FIFO queue of partial paths; `visited` is marked when a
node is enqueued.  A queue entry is stored as `(current, path)` where
`current = path[path.length - 1]`, exactly the value the JS loop reads. -/

/-- The `neighbor` computed from one edge for the current node
(app.js:512-514): `edge[1]` if `edge[0] === current`, else `edge[0]` if
`edge[1] === current`, else `null`. -/
def neighborOf (cur : String) (e : String × String) : Option String :=
  if e.1 = cur then some e.2 else if e.2 = cur then some e.1 else none

/-- `u` and `v` are joined by an edge of the graph (in either orientation). -/
def Adj (es : List (String × String)) (u v : String) : Prop :=
  ∃ e ∈ es, (e.1 = u ∧ e.2 = v) ∨ (e.2 = u ∧ e.1 = v)

/-- The inner `for (const edge of navGraph.edges)` loop of app.js:511-520:
scan the edges, and for each neighbor that is truthy (a non-empty string —
the `neighbor &&` part of the guard) and unvisited, mark it visited and push
the extended path onto the queue. -/
def scanEdges (cur : String) (path : List String) :
    List (String × String) → List String → List (String × List String) →
    List String × List (String × List String)
  | [], vis, queue => (vis, queue)
  | e :: es, vis, queue =>
    match neighborOf cur e with
    | some w =>
      if w ≠ "" ∧ w ∉ vis then
        scanEdges cur path es (vis ++ [w]) (queue ++ [(w, path ++ [w])])
      else scanEdges cur path es vis queue
    | none => scanEdges cur path es vis queue

/-- All ids occurring in the edge list; the only ids the BFS can ever add to
`visited`.  Used for the termination measure of `bfsLoop`. -/
def edgeIds (es : List (String × String)) : List String :=
  es.map Prod.fst ++ es.map Prod.snd

/-- Termination measure helper: how many edge-list id occurrences are not yet
visited. -/
def unvisitedCount (es : List (String × String)) (vis : List String) : ℕ :=
  ((edgeIds es).filter (fun x => decide (x ∉ vis))).length

theorem adj_cons_iff (e : String × String) (es : List (String × String))
    (cur w : String) :
    Adj (e :: es) cur w ↔ neighborOf cur e = some w ∨ Adj es cur w := by
  constructor
  · rintro ⟨e', he', hd⟩
    rcases List.mem_cons.mp he' with rfl | he'
    · left
      unfold neighborOf
      rcases hd with ⟨h1, rfl⟩ | ⟨h2, rfl⟩
      · rw [if_pos h1]
      · by_cases h1 : e'.1 = cur
        · rw [if_pos h1, h1, ← h2]
        · rw [if_neg h1, if_pos h2]
    · exact Or.inr ⟨e', he', hd⟩
  · rintro (hn | ⟨e', he', hd⟩)
    · refine ⟨e, List.mem_cons_self _ _, ?_⟩
      unfold neighborOf at hn
      by_cases h1 : e.1 = cur
      · rw [if_pos h1] at hn
        exact Or.inl ⟨h1, Option.some_injective _ hn⟩
      · rw [if_neg h1] at hn
        by_cases h2 : e.2 = cur
        · rw [if_pos h2] at hn
          exact Or.inr ⟨h2, Option.some_injective _ hn⟩
        · rw [if_neg h2] at hn
          exact absurd hn (by simp)
    · exact ⟨e', List.mem_cons_of_mem _ he', hd⟩

/-- What one scan of the edge list does: `visited` grows by a duplicate-free
block `ws` of fresh non-empty neighbors of `cur` (every such neighbor is
caught), and exactly the corresponding extended paths are appended to the
queue, in order. -/
theorem scanEdges_spec (cur : String) (path : List String) :
    ∀ (es : List (String × String)) (vis : List String)
      (queue : List (String × List String)),
    ∃ ws : List String,
      (scanEdges cur path es vis queue).1 = vis ++ ws ∧
      (scanEdges cur path es vis queue).2 =
        queue ++ ws.map (fun w => (w, path ++ [w])) ∧
      ws.Nodup ∧
      (∀ w ∈ ws, w ∉ vis ∧ w ≠ "" ∧ Adj es cur w) ∧
      (∀ w, Adj es cur w → w ≠ "" → w ∉ vis → w ∈ ws) := by
  intro es
  induction es with
  | nil =>
    intro vis queue
    refine ⟨[], by simp [scanEdges], by simp [scanEdges], by simp, by simp, ?_⟩
    rintro w ⟨e, he, -⟩
    simp at he
  | cons e es ih =>
    intro vis queue
    rcases hn : neighborOf cur e with - | w
    · obtain ⟨ws', hv, hq, hnd, hprop, hcomp⟩ := ih vis queue
      refine ⟨ws', by simp [scanEdges, hn, hv], by simp [scanEdges, hn, hq],
        hnd, ?_, ?_⟩
      · intro w hmem
        obtain ⟨h1, h2, h3⟩ := hprop w hmem
        exact ⟨h1, h2, (adj_cons_iff e es cur w).mpr (Or.inr h3)⟩
      · intro w hadj hne hnv
        rcases (adj_cons_iff e es cur w).mp hadj with h | h
        · rw [hn] at h
          cases h
        · exact hcomp w h hne hnv
    · by_cases hw : w ≠ "" ∧ w ∉ vis
      · obtain ⟨ws', hv, hq, hnd, hprop, hcomp⟩ :=
          ih (vis ++ [w]) (queue ++ [(w, path ++ [w])])
        refine ⟨w :: ws', ?_, ?_, ?_, ?_, ?_⟩
        · simp only [scanEdges, hn, if_pos hw, hv, List.append_assoc,
            List.singleton_append]
        · simp only [scanEdges, hn, if_pos hw, hq, List.append_assoc,
            List.singleton_append, List.map_cons]
        · refine List.nodup_cons.mpr ⟨fun hmem => ?_, hnd⟩
          exact ((hprop _ hmem).1) (by simp)
        · intro u hu
          rcases List.mem_cons.mp hu with rfl | hmem
          · exact ⟨hw.2, hw.1, (adj_cons_iff e es cur u).mpr (Or.inl hn)⟩
          · obtain ⟨h1, h2, h3⟩ := hprop u hmem
            exact ⟨fun hc => h1 (by simp [hc]), h2,
              (adj_cons_iff e es cur u).mpr (Or.inr h3)⟩
        · intro u hadj hne hnv
          rcases (adj_cons_iff e es cur u).mp hadj with h | h
          · rw [hn] at h
            exact List.mem_cons.mpr (Or.inl (Option.some_injective _ h).symm)
          · by_cases hc : u = w
            · exact List.mem_cons.mpr (Or.inl hc)
            · exact List.mem_cons_of_mem _ (hcomp u h hne (by simp [hc, hnv]))
      · obtain ⟨ws', hv, hq, hnd, hprop, hcomp⟩ := ih vis queue
        refine ⟨ws', by simp [scanEdges, hn, if_neg hw, hv],
          by simp [scanEdges, hn, if_neg hw, hq], hnd, ?_, ?_⟩
        · intro u hu
          obtain ⟨h1, h2, h3⟩ := hprop u hu
          exact ⟨h1, h2, (adj_cons_iff e es cur u).mpr (Or.inr h3)⟩
        · intro u hadj hne hnv
          rcases (adj_cons_iff e es cur u).mp hadj with h | h
          · rw [hn] at h
            have hu : u = w := (Option.some_injective _ h).symm
            subst hu
            exact absurd ⟨hne, hnv⟩ hw
          · exact hcomp u h hne hnv

theorem adj_mem_edgeIds {es : List (String × String)} {u w : String}
    (hadj : Adj es u w) : w ∈ edgeIds es := by
  obtain ⟨e, he, hd⟩ := hadj
  rcases hd with ⟨-, rfl⟩ | ⟨-, rfl⟩
  · exact List.mem_append_right _ (List.mem_map.mpr ⟨e, he, rfl⟩)
  · exact List.mem_append_left _ (List.mem_map.mpr ⟨e, he, rfl⟩)

theorem unvisitedCount_append_le (es : List (String × String))
    (vis ws : List String) :
    unvisitedCount es (vis ++ ws) ≤ unvisitedCount es vis := by
  refine List.Sublist.length_le (List.monotone_filter_right _ ?_)
  intro a ha
  simp only [decide_eq_true_eq] at ha ⊢
  intro hmem
  exact ha (List.mem_append_left _ hmem)

theorem unvisitedCount_append_lt (es : List (String × String))
    (vis ws : List String) (w : String) (hw : w ∈ ws) (hnv : w ∉ vis)
    (hep : w ∈ edgeIds es) :
    unvisitedCount es (vis ++ ws) < unvisitedCount es vis := by
  refine lt_of_le_of_ne (unvisitedCount_append_le es vis ws) ?_
  intro heq
  have hsub : ((edgeIds es).filter (fun x => decide (x ∉ vis ++ ws))).Sublist
      ((edgeIds es).filter (fun x => decide (x ∉ vis))) := by
    refine List.monotone_filter_right _ ?_
    intro a ha
    simp only [decide_eq_true_eq] at ha ⊢
    intro hmem
    exact ha (List.mem_append_left _ hmem)
  have hEq : (edgeIds es).filter (fun x => decide (x ∉ vis ++ ws)) =
      (edgeIds es).filter (fun x => decide (x ∉ vis)) :=
    hsub.eq_of_length heq
  have h1 : w ∈ (edgeIds es).filter (fun x => decide (x ∉ vis)) := by
    simp only [List.mem_filter, decide_eq_true_eq]
    exact ⟨hep, hnv⟩
  rw [← hEq] at h1
  simp only [List.mem_filter, decide_eq_true_eq] at h1
  exact h1.2 (List.mem_append_right _ hw)

/-- The `while (queue.length > 0)` loop of app.js:502-521.  Termination:
every iteration either marks a fresh edge-endpoint id visited or shortens
the queue. -/
def bfsLoop (es : List (String × String)) (tgt : String) :
    List (String × List String) → List String → Option (List String)
  | [], _ => none
  | (cur, path) :: rest, vis =>
    if cur = tgt then some path
    else
      bfsLoop es tgt (scanEdges cur path es vis rest).2
        (scanEdges cur path es vis rest).1
termination_by queue vis => (unvisitedCount es vis, queue.length)
decreasing_by
  obtain ⟨ws, hv, hq, hnd, hprop, hcomp⟩ := scanEdges_spec cur path es vis rest
  rcases ws with - | ⟨w, ws'⟩
  · rw [hv, hq]
    simp only [List.append_nil, List.map_nil]
    right
    simp
  · rw [hv, hq]
    left
    exact unvisitedCount_append_lt es vis (w :: ws') w (by simp)
      (hprop w (by simp)).1 (adj_mem_edgeIds (hprop w (by simp)).2.2)

/-! ### Walks and shortest walks

Specification vocabulary for the BFS theorems: walks along a relation, and
minimal walk lengths.  `l.length` counts nodes, so a walk of `n` edges has
length `n + 1`. -/

/-- `l` is a walk from `u` to `v` along the relation `R`. -/
def IsWalkRel {α : Type*} (R : α → α → Prop) (u v : α) (l : List α) : Prop :=
  l.head? = some u ∧ l.getLast? = some v ∧ l.Chain' R

/-- `n` is the node count of a shortest walk from `u` to `v` along `R`. -/
def MinWalkRel {α : Type*} (R : α → α → Prop) (u v : α) (n : ℕ) : Prop :=
  (∃ l, IsWalkRel R u v l ∧ l.length = n) ∧
  ∀ l, IsWalkRel R u v l → n ≤ l.length

/-- The relation the BFS actually traverses: an edge of the graph whose far
endpoint survives the truthiness guard `neighbor &&` (app.js:516), i.e. is
not the empty string. -/
def AdjT (es : List (String × String)) (u v : String) : Prop :=
  Adj es u v ∧ v ≠ ""

theorem isWalkRel_singleton {α : Type*} (R : α → α → Prop) (u : α) :
    IsWalkRel R u u [u] := ⟨rfl, rfl, by simp⟩

theorem IsWalkRel.ne_nil {α : Type*} {R : α → α → Prop} {u v : α}
    {l : List α} (h : IsWalkRel R u v l) : l ≠ [] := by
  intro hc
  rw [hc] at h
  cases h.1

theorem IsWalkRel.length_pos {α : Type*} {R : α → α → Prop} {u v : α}
    {l : List α} (h : IsWalkRel R u v l) : 1 ≤ l.length :=
  List.length_pos.mpr h.ne_nil

theorem IsWalkRel.extend {α : Type*} {R : α → α → Prop} {u x w : α}
    {l : List α} (h : IsWalkRel R u x l) (hR : R x w) :
    IsWalkRel R u w (l ++ [w]) := by
  have hne := h.ne_nil
  obtain ⟨h1, h2, h3⟩ := h
  refine ⟨?_, by simp, ?_⟩
  · rw [List.head?_append_of_ne_nil _ hne]
    exact h1
  · rw [List.chain'_append]
    refine ⟨h3, by simp, ?_⟩
    intro a ha b hb
    simp only [List.head?_cons, Option.mem_def, Option.some.injEq] at hb
    rw [h2, Option.mem_def, Option.some.injEq] at ha
    subst ha
    subst hb
    exact hR

theorem IsWalkRel.length_one {α : Type*} {R : α → α → Prop} {u v : α}
    {l : List α} (h : IsWalkRel R u v l) (hl : l.length = 1) : u = v := by
  obtain ⟨a, rfl⟩ := List.length_eq_one.mp hl
  obtain ⟨h1, h2, -⟩ := h
  simp only [List.head?_cons, Option.some.injEq] at h1
  simp only [List.getLast?_singleton, Option.some.injEq] at h2
  rw [← h1, ← h2]

theorem IsWalkRel.decomp {α : Type*} {R : α → α → Prop} {u w : α}
    {l : List α} (h : IsWalkRel R u w l) (hl : 2 ≤ l.length) :
    ∃ l' x, l = l' ++ [w] ∧ IsWalkRel R u x l' ∧ R x w ∧
      l.length = l'.length + 1 := by
  have hne := h.ne_nil
  obtain ⟨h1, h2, h3⟩ := h
  have hdec : l.dropLast ++ [l.getLast hne] = l := List.dropLast_append_getLast hne
  have hw : l.getLast hne = w := by
    have h4 := List.getLast?_eq_getLast l hne
    rw [h2] at h4
    exact Option.some_injective _ h4.symm
  have hne' : l.dropLast ≠ [] := by
    intro hc
    rw [← hdec, hc] at hl
    simp at hl
  refine ⟨l.dropLast, l.dropLast.getLast hne', ?_, ⟨?_, ?_, ?_⟩, ?_, ?_⟩
  · rw [← hw]
    exact hdec.symm
  · rw [← hdec, List.head?_append_of_ne_nil _ hne'] at h1
    exact h1
  · exact List.getLast?_eq_getLast _ hne'
  · rw [← hdec] at h3
    exact (List.chain'_append.mp h3).1
  · rw [← hdec] at h3
    have h5 := (List.chain'_append.mp h3).2.2
    have h6 := h5 (l.dropLast.getLast hne')
      (by rw [Option.mem_def, List.getLast?_eq_getLast _ hne'])
      (l.getLast hne) (by rw [Option.mem_def, List.head?_cons])
    rw [hw] at h6
    exact h6
  · have h7 := List.length_dropLast l
    have h8 := List.length_pos.mpr hne
    omega

theorem minWalkRel_exists {α : Type*} {R : α → α → Prop} {u v : α}
    (h : ∃ l, IsWalkRel R u v l) : ∃ n, MinWalkRel R u v n := by
  classical
  set S : Set ℕ := {n | ∃ l, IsWalkRel R u v l ∧ l.length = n} with hS
  have hSne : S.Nonempty := by
    obtain ⟨l, hl⟩ := h
    exact ⟨l.length, l, hl, rfl⟩
  refine ⟨sInf S, Nat.sInf_mem hSne, ?_⟩
  intro l hl
  exact Nat.sInf_le ⟨l, hl, rfl⟩

theorem MinWalkRel.unique {α : Type*} {R : α → α → Prop} {u v : α} {m n : ℕ}
    (hm : MinWalkRel R u v m) (hn : MinWalkRel R u v n) : m = n := by
  obtain ⟨⟨l, hl, hlen⟩, hmin⟩ := hm
  obtain ⟨⟨l', hl', hlen'⟩, hmin'⟩ := hn
  have h1 := hmin l' hl'
  have h2 := hmin' l hl
  omega

theorem MinWalkRel.pos {α : Type*} {R : α → α → Prop} {u v : α} {n : ℕ}
    (h : MinWalkRel R u v n) : 1 ≤ n := by
  obtain ⟨⟨l, hl, hlen⟩, -⟩ := h
  rw [← hlen]
  exact hl.length_pos

theorem MinWalkRel.eq_of_one {α : Type*} {R : α → α → Prop} {u v : α}
    (h : MinWalkRel R u v 1) : u = v := by
  obtain ⟨⟨l, hl, hlen⟩, -⟩ := h
  exact hl.length_one hlen

theorem minWalkRel_self {α : Type*} (R : α → α → Prop) (u : α) :
    MinWalkRel R u u 1 :=
  ⟨⟨[u], isWalkRel_singleton R u, rfl⟩, fun _ hl => hl.length_pos⟩

theorem MinWalkRel.pred {α : Type*} {R : α → α → Prop} {u w : α} {n : ℕ}
    (h : MinWalkRel R u w (n + 2)) :
    ∃ x, MinWalkRel R u x (n + 1) ∧ R x w := by
  obtain ⟨⟨l, hl, hlen⟩, hmin⟩ := h
  obtain ⟨l', x, heq, hl', hR, hlen'⟩ := hl.decomp (by omega)
  refine ⟨x, ⟨⟨l', hl', by omega⟩, ?_⟩, hR⟩
  intro l'' hl''
  have h1 := hmin (l'' ++ [w]) (hl''.extend hR)
  simp only [List.length_append, List.length_singleton] at h1
  omega

theorem MinWalkRel.le_succ {α : Type*} {R : α → α → Prop} {u x w : α} {n : ℕ}
    (h : MinWalkRel R u x n) (hR : R x w) :
    ∃ m, m ≤ n + 1 ∧ MinWalkRel R u w m := by
  obtain ⟨⟨l, hl, hlen⟩, -⟩ := h
  obtain ⟨m, hm⟩ := minWalkRel_exists ⟨l ++ [w], hl.extend hR⟩
  refine ⟨m, ?_, hm⟩
  have h1 := hm.2 (l ++ [w]) (hl.extend hR)
  simp only [List.length_append, List.length_singleton] at h1
  omega

theorem minWalkRel_between {α : Type*} {R : α → α → Prop} {u : α} :
    ∀ n (v : α), MinWalkRel R u v n → ∀ m, 1 ≤ m → m ≤ n →
      ∃ x, MinWalkRel R u x m := by
  intro n
  induction n using Nat.strong_induction_on with
  | _ n ih =>
    intro v h m h1 h2
    rcases eq_or_lt_of_le h2 with rfl | hlt
    · exact ⟨v, h⟩
    · match n, h, hlt with
      | 0, h, _ => exact absurd (MinWalkRel.pos h) (by omega)
      | 1, h, hlt => omega
      | (k + 2), h, hlt =>
        obtain ⟨x, hx, -⟩ := MinWalkRel.pred h
        exact ih (k + 1) (by omega) x hx m h1 (by omega)

/-! ### The BFS loop invariant -/

/-- A well-formed queue entry: its path is a shortest duplicate-free walk
from the BFS origin to the entry's current node. -/
def GoodEnt (es : List (String × String)) (start : String)
    (ent : String × List String) : Prop :=
  IsWalkRel (AdjT es) start ent.1 ent.2 ∧ ent.2.Nodup ∧
    MinWalkRel (AdjT es) start ent.1 ent.2.length

/-- The invariant of `bfsLoop`.  The queue is a level-`k` block `A` followed
by a level-`k+1` block `B`; `visited` is exactly the ids at distance `≤ k`
discovered so far (those at distance `k + 1` being the endpoints of `B`);
every id at distance `k + 1` is either already in `B` or adjacent to a
pending level-`k` entry; and a visited target is still in the queue. -/
def BfsInv (es : List (String × String)) (start tgt : String)
    (queue : List (String × List String)) (vis : List String) : Prop :=
  ∃ (k : ℕ) (A B : List (String × List String)),
    queue = A ++ B ∧
    1 ≤ k ∧
    (A = [] → B = []) ∧
    (∀ ent ∈ queue, GoodEnt es start ent ∧ ∀ x ∈ ent.2, x ∈ vis) ∧
    (∀ ent ∈ A, ent.2.length = k) ∧
    (∀ ent ∈ B, ent.2.length = k + 1) ∧
    (∀ v, v ∈ vis ↔
      (∃ m ≤ k, MinWalkRel (AdjT es) start v m) ∨ v ∈ B.map Prod.fst) ∧
    (∀ w, MinWalkRel (AdjT es) start w (k + 1) →
      w ∈ B.map Prod.fst ∨ ∃ ent ∈ A, AdjT es ent.1 w) ∧
    (tgt ∈ vis → ∃ ent ∈ queue, ent.1 = tgt)

theorem bfsInv_init (es : List (String × String)) (start tgt : String) :
    BfsInv es start tgt [(start, [start])] [start] := by
  refine ⟨1, [(start, [start])], [], rfl, le_refl 1, by simp, ?_, ?_, by simp,
    ?_, ?_, ?_⟩
  · intro ent hent
    rcases List.mem_cons.mp hent with rfl | h
    · exact ⟨⟨isWalkRel_singleton _ start, by simp,
        minWalkRel_self _ start⟩, by simp⟩
    · simp at h
  · intro ent hent
    rcases List.mem_cons.mp hent with rfl | h
    · rfl
    · simp at h
  · intro v
    constructor
    · intro hv
      rcases List.mem_singleton.mp hv with rfl
      exact Or.inl ⟨1, le_refl 1, minWalkRel_self _ v⟩
    · rintro (⟨m, hm, hmin⟩ | h)
      · have h1 := hmin.pos
        have hm1 : m = 1 := by omega
        subst hm1
        rw [List.mem_singleton]
        exact hmin.eq_of_one.symm
      · simp at h
  · intro w hw
    obtain ⟨x, hx, hR⟩ := MinWalkRel.pred (n := 0) hw
    have hxs : x = start := hx.eq_of_one.symm
    rw [hxs] at hR
    exact Or.inr ⟨(start, [start]), by simp, hR⟩
  · intro hv
    rcases List.mem_singleton.mp hv with rfl
    exact ⟨(tgt, [tgt]), by simp, rfl⟩

/-- One non-target dequeue step preserves the invariant. -/
theorem bfsInv_step {es : List (String × String)} {start tgt cur : String}
    {p : List String} {rest : List (String × List String)}
    {vis : List String}
    (hInv : BfsInv es start tgt ((cur, p) :: rest) vis) (hct : cur ≠ tgt) :
    BfsInv es start tgt (scanEdges cur p es vis rest).2
      (scanEdges cur p es vis rest).1 := by
  obtain ⟨k, A, B, hsplit, hk, hAB, hgood, hlenA, hlenB, hvis, hfront, htgt⟩ :=
    hInv
  rcases A with - | ⟨a, A'⟩
  · rw [hAB rfl] at hsplit
    cases hsplit
  obtain ⟨ws, hv, hq, hnd, hprop, hcomp⟩ := scanEdges_spec cur p es vis rest
  rw [hv, hq]
  have h0 : (cur, p) :: rest = a :: (A' ++ B) := by simpa using hsplit
  have ha : a = (cur, p) := by
    injection h0 with h1 h2
    exact h1.symm
  subst ha
  have hrest : rest = A' ++ B := by
    injection h0 with h1 h2
  have hcur := hgood (cur, p) (List.mem_cons_self _ _)
  have hcurgood : GoodEnt es start (cur, p) := hcur.1
  have hsubvis : ∀ x ∈ p, x ∈ vis := hcur.2
  have hplen : p.length = k := hlenA (cur, p) (List.mem_cons_self _ _)
  have hcur_walk : IsWalkRel (AdjT es) start cur p := hcurgood.1
  have hcur_min : MinWalkRel (AdjT es) start cur k := by
    rw [← hplen]
    exact hcurgood.2.2
  -- distances of the fresh ids
  have hwdist : ∀ w ∈ ws, MinWalkRel (AdjT es) start w (k + 1) := by
    intro w hw
    obtain ⟨hnv, hne, hadj⟩ := hprop w hw
    obtain ⟨m, hmle, hmin⟩ := hcur_min.le_succ (⟨hadj, hne⟩ : AdjT es cur w)
    have hmk : ¬ (m ≤ k) := by
      intro hle
      exact hnv ((hvis w).mpr (Or.inl ⟨m, hle, hmin⟩))
    have hmeq : m = k + 1 := by omega
    rw [← hmeq]
    exact hmin
  -- the new entries are well formed
  have hgoodNew : ∀ w ∈ ws, GoodEnt es start (w, p ++ [w]) := by
    intro w hw
    obtain ⟨hnv, hne, hadj⟩ := hprop w hw
    refine ⟨hcur_walk.extend ⟨hadj, hne⟩, ?_, ?_⟩
    · rw [List.nodup_append]
      refine ⟨hcurgood.2.1, by simp, ?_⟩
      intro x hx hx2
      rcases List.mem_singleton.mp hx2 with rfl
      exact hnv (hsubvis x hx)
    · simp only [List.length_append, List.length_singleton, hplen]
      exact hwdist w hw
  have hmapE : (ws.map (fun w => (w, p ++ [w]))).map Prod.fst = ws := by
    rw [List.map_map]
    have hcompid : (Prod.fst ∘ fun w : String => (w, p ++ [w])) = id := by
      funext w
      rfl
    rw [hcompid, List.map_id]
  -- elementwise goodness over the new queue
  have hgood' : ∀ ent ∈ rest ++ ws.map (fun w => (w, p ++ [w])),
      GoodEnt es start ent ∧ ∀ x ∈ ent.2, x ∈ vis ++ ws := by
    intro ent hent
    rcases List.mem_append.mp hent with hent | hent
    · obtain ⟨hg, hsub⟩ := hgood ent (List.mem_cons_of_mem _ hent)
      exact ⟨hg, fun x hx => List.mem_append_left _ (hsub x hx)⟩
    · obtain ⟨w, hw, rfl⟩ := List.mem_map.mp hent
      refine ⟨hgoodNew w hw, ?_⟩
      intro x hx
      rcases List.mem_append.mp hx with hx | hx
      · exact List.mem_append_left _ (hsubvis x hx)
      · rcases List.mem_singleton.mp hx with rfl
        exact List.mem_append_right _ hw
  have htgt' : tgt ∈ vis ++ ws →
      ∃ ent ∈ rest ++ ws.map (fun w => (w, p ++ [w])), ent.1 = tgt := by
    intro hmem
    rcases List.mem_append.mp hmem with hmem | hmem
    · obtain ⟨ent, hent, hfst⟩ := htgt hmem
      rcases List.mem_cons.mp hent with rfl | hent
      · exact absurd hfst hct
      · exact ⟨ent, List.mem_append_left _ hent, hfst⟩
    · exact ⟨(tgt, p ++ [tgt]), List.mem_append_right _
        (List.mem_map.mpr ⟨tgt, hmem, rfl⟩), rfl⟩
  rcases A' with - | ⟨a2, A2⟩
  · -- the dequeued entry closed level k: advance to level k + 1
    have hBrest : rest = B := by simpa using hrest
    subst hBrest
    refine ⟨k + 1, rest ++ ws.map (fun w => (w, p ++ [w])), [], by simp,
      by omega, fun _ => rfl, hgood', ?_, by simp, ?_, ?_, ?_⟩
    · intro ent hent
      rcases List.mem_append.mp hent with hent | hent
      · exact hlenB ent hent
      · obtain ⟨w, hw, rfl⟩ := List.mem_map.mp hent
        simp [hplen]
    · intro v
      simp only [List.map_nil, List.not_mem_nil, or_false]
      constructor
      · intro hmem
        rcases List.mem_append.mp hmem with hmem | hmem
        · rcases (hvis v).mp hmem with ⟨m, hm, hmin⟩ | hmem
          · exact ⟨m, by omega, hmin⟩
          · obtain ⟨ent, hent, hfst⟩ := List.mem_map.mp hmem
            have hg := (hgood ent (List.mem_cons_of_mem _ hent)).1
            refine ⟨k + 1, le_refl _, ?_⟩
            rw [← hfst, ← hlenB ent hent]
            exact hg.2.2
        · exact ⟨k + 1, le_refl _, hwdist v hmem⟩
      · rintro ⟨m, hm, hmin⟩
        by_cases hmk : m ≤ k
        · exact List.mem_append_left _ ((hvis v).mpr (Or.inl ⟨m, hmk, hmin⟩))
        · have hmeq : m = k + 1 := by omega
          subst hmeq
          rcases hfront v hmin with hmem | ⟨ent, hent, hadj⟩
          · exact List.mem_append_left _ ((hvis v).mpr (Or.inr hmem))
          · rcases List.mem_singleton.mp hent with rfl
            by_cases hv' : v ∈ vis
            · exact List.mem_append_left _ hv'
            · exact List.mem_append_right _
                (hcomp v hadj.1 hadj.2 hv')
    · intro w hw
      obtain ⟨x, hx, hR⟩ := MinWalkRel.pred hw
      have hxmem : x ∈ rest.map Prod.fst ∨ x ∈ ws := by
        rcases hfront x hx with hmem | ⟨ent, hent, hadj⟩
        · exact Or.inl hmem
        · rcases List.mem_singleton.mp hent with rfl
          by_cases hv' : x ∈ vis
          · rcases (hvis x).mp hv' with ⟨m, hm, hmin⟩ | hmem
            · have := hmin.unique hx
              omega
            · exact Or.inl hmem
          · exact Or.inr (hcomp x hadj.1 hadj.2 hv')
      right
      rcases hxmem with hmem | hmem
      · obtain ⟨ent, hent, hfst⟩ := List.mem_map.mp hmem
        refine ⟨ent, List.mem_append_left _ hent, ?_⟩
        rw [hfst]
        exact hR
      · exact ⟨(x, p ++ [x]), List.mem_append_right _
          (List.mem_map.mpr ⟨x, hmem, rfl⟩), hR⟩
    · exact htgt'
  · -- level k still has pending entries
    refine ⟨k, a2 :: A2, B ++ ws.map (fun w => (w, p ++ [w])), ?_, hk,
      by simp, hgood', ?_, ?_, ?_, ?_, htgt'⟩
    · rw [hrest]
      simp
    · intro ent hent
      exact hlenA ent (List.mem_cons_of_mem _ hent)
    · intro ent hent
      rcases List.mem_append.mp hent with hent | hent
      · exact hlenB ent hent
      · obtain ⟨w, hw, rfl⟩ := List.mem_map.mp hent
        simp [hplen]
    · intro v
      rw [List.map_append, hmapE]
      constructor
      · intro hmem
        rcases List.mem_append.mp hmem with hmem | hmem
        · rcases (hvis v).mp hmem with h | h
          · exact Or.inl h
          · exact Or.inr (List.mem_append_left _ h)
        · exact Or.inr (List.mem_append_right _ hmem)
      · rintro (⟨m, hm, hmin⟩ | hmem)
        · exact List.mem_append_left _ ((hvis v).mpr (Or.inl ⟨m, hm, hmin⟩))
        · rcases List.mem_append.mp hmem with hmem | hmem
          · exact List.mem_append_left _ ((hvis v).mpr (Or.inr hmem))
          · exact List.mem_append_right _ hmem
    · intro w hw
      rw [List.map_append, hmapE]
      rcases hfront w hw with hmem | ⟨ent, hent, hadj⟩
      · exact Or.inl (List.mem_append_left _ hmem)
      · rcases List.mem_cons.mp hent with rfl | hent
        · by_cases hv' : w ∈ vis
          · rcases (hvis w).mp hv' with ⟨m, hm, hmin⟩ | hmem
            · have := hmin.unique hw
              omega
            · exact Or.inl (List.mem_append_left _ hmem)
          · exact Or.inl (List.mem_append_right _
              (hcomp w hadj.1 hadj.2 hv'))
        · exact Or.inr ⟨ent, hent, hadj⟩

/-- Full correctness of the BFS loop, by functional induction: a returned
path is a shortest duplicate-free walk from the origin to the target along
the traversal relation, and `none` is returned only when no such walk
exists. -/
theorem bfsLoop_correct (es : List (String × String)) (tgt start : String) :
    ∀ (queue : List (String × List String)) (vis : List String),
    BfsInv es start tgt queue vis →
    (∀ p, bfsLoop es tgt queue vis = some p →
      IsWalkRel (AdjT es) start tgt p ∧ p.Nodup ∧
        MinWalkRel (AdjT es) start tgt p.length) ∧
    (bfsLoop es tgt queue vis = none →
      ∀ l, ¬ IsWalkRel (AdjT es) start tgt l) := by
  intro queue vis
  induction queue, vis using bfsLoop.induct es tgt with
  | case1 vis =>
    intro hInv
    constructor
    · intro p hp
      rw [bfsLoop] at hp
      cases hp
    · rintro - l hl
      obtain ⟨k, A, B, hsplit, hk, hAB, hgood, hlenA, hlenB, hvis, hfront,
        htgt⟩ := hInv
      obtain ⟨hA, hB⟩ := List.append_eq_nil.mp hsplit.symm
      have htv : tgt ∉ vis := by
        intro h
        obtain ⟨ent, hent, -⟩ := htgt h
        simp at hent
      obtain ⟨n, hn⟩ := minWalkRel_exists ⟨l, hl⟩
      have hn1 : 1 ≤ n := hn.pos
      by_cases hnk : n ≤ k
      · exact htv ((hvis tgt).mpr (Or.inl ⟨n, hnk, hn⟩))
      · obtain ⟨x, hx⟩ := minWalkRel_between n tgt hn (k + 1) (by omega)
          (by omega)
        rcases hfront x hx with hmem | ⟨ent, hent, -⟩
        · rw [hB] at hmem
          simp at hmem
        · rw [hA] at hent
          simp at hent
  | case2 path rest vis =>
    intro hInv
    have hres : bfsLoop es tgt ((tgt, path) :: rest) vis = some path := by
      rw [bfsLoop]
      simp
    constructor
    · intro p hp
      rw [hres] at hp
      have hpp : path = p := Option.some_injective _ hp
      subst hpp
      obtain ⟨k, A, B, hsplit, hk, hAB, hgood, hlenA, hlenB, hvis, hfront,
        htgt⟩ := hInv
      have hg := (hgood (tgt, path) (List.mem_cons_self _ _)).1
      exact ⟨hg.1, hg.2.1, hg.2.2⟩
    · intro h
      rw [hres] at h
      cases h
  | case3 cur path rest vis hct ih =>
    intro hInv
    have hres : bfsLoop es tgt ((cur, path) :: rest) vis =
        bfsLoop es tgt (scanEdges cur path es vis rest).2
          (scanEdges cur path es vis rest).1 := by
      rw [bfsLoop]
      simp [hct]
    rw [hres]
    exact ih (bfsInv_step hInv hct)


/-- `navGraph.nodes[nodeId]` (app.js:507): object-key lookup in the node
mapping; `none` models JavaScript `undefined` for a missing key. -/
def lookupNode (g : NavGraph) (id : String) : Option NavNode :=
  (g.nodes.find? (fun q => q.1 == id)).map Prod.snd

/-- `findPath(fromName, toName)` (app.js:489-524), at the level of node ids:
resolve both names; `if (!fromNode || !toNode) return null` (app.js:496) —
`null` and the empty string are both falsy; then run the BFS from a queue
holding the single path `[fromNode]` with `visited = {fromNode}`
(app.js:499-500). -/
def findPathIds (g : NavGraph) (feats : List NamedFeature)
    (fromName toName : String) : Option (List String) :=
  match findNodeByName g feats fromName, findNodeByName g feats toName with
  | some f, some t =>
    if f = "" ∨ t = "" then none
    else bfsLoop g.edges t [(f, [f])] [f]
  | some _, none => none
  | none, _ => none

/-- `findPath`'s returned value (app.js:507): the found id path mapped
through the node table, `path.map(nodeId => navGraph.nodes[nodeId])`. -/
def findPath (g : NavGraph) (feats : List NamedFeature)
    (fromName toName : String) : Option (List (Option NavNode)) :=
  (findPathIds g feats fromName toName).map (fun ids => ids.map (lookupNode g))

/-- Reachability along graph edges: a walk (as a node-id list) exists. -/
def ReachableIn (es : List (String × String)) (u v : String) : Prop :=
  ∃ l, IsWalkRel (Adj es) u v l

theorem adjT_of_adj {es : List (String × String)}
    (hne : ∀ e ∈ es, e.1 ≠ "" ∧ e.2 ≠ "") {u v : String}
    (h : Adj es u v) : AdjT es u v := by
  refine ⟨h, ?_⟩
  obtain ⟨e, he, hd⟩ := h
  rcases hd with ⟨-, rfl⟩ | ⟨-, rfl⟩
  · exact (hne e he).2
  · exact (hne e he).1

theorem isWalkRel_adjT_of_adj {es : List (String × String)}
    (hne : ∀ e ∈ es, e.1 ≠ "" ∧ e.2 ≠ "") {u v : String} {l : List String}
    (h : IsWalkRel (Adj es) u v l) : IsWalkRel (AdjT es) u v l :=
  ⟨h.1, h.2.1, h.2.2.imp (fun _ _ hab => adjT_of_adj hne hab)⟩

theorem isWalkRel_adj_of_adjT {es : List (String × String)} {u v : String}
    {l : List String} (h : IsWalkRel (AdjT es) u v l) :
    IsWalkRel (Adj es) u v l :=
  ⟨h.1, h.2.1, h.2.2.imp (fun _ _ hab => hab.1)⟩

theorem findNodeLoop_mem {nameLower : List Char}
    {nodes : List (String × NavNode)} {u : String}
    (h : findNodeLoop nameLower nodes = some u) :
    ∃ n, (u, n) ∈ nodes := by
  induction nodes with
  | nil => cases h
  | cons q rest ih =>
    obtain ⟨id, n⟩ := q
    rw [findNodeLoop] at h
    by_cases h1 : plainMatch nameLower id
    · rw [if_pos h1] at h
      have hid : id = u := Option.some_injective _ h
      subst hid
      exact ⟨n, List.mem_cons_self _ _⟩
    · rw [if_neg h1] at h
      by_cases h2 : strippedMatch nameLower id
      · rw [if_pos h2] at h
        have hid : id = u := Option.some_injective _ h
        subst hid
        exact ⟨n, List.mem_cons_self _ _⟩
      · rw [if_neg h2] at h
        obtain ⟨n', hn'⟩ := ih h
        exact ⟨n', List.mem_cons_of_mem _ hn'⟩

/-- Every id `findNodeByName` can return is either a key of the node mapping
or one of the three hard-coded walkway ids, so under the stated key
hypothesis it is never the empty string. -/
theorem findNodeByName_ne_empty {g : NavGraph} {feats : List NamedFeature}
    {nm u : String} (hkeys : ∀ q ∈ g.nodes, q.1 ≠ "")
    (h : findNodeByName g feats nm = some u) : u ≠ "" := by
  rw [findNodeByName] at h
  rcases hloop : findNodeLoop (normalize nm.data) g.nodes with - | w
  · simp only [hloop, fallbackNode] at h
    rcases hfind : feats.find? (fun f => f.name = some nm) with - | f
    · simp only [hfind] at h
      cases h
    · simp only [hfind] at h
      split_ifs at h with h0 h1 h2
      · rw [← Option.some_injective _ h]
        decide
      · rw [← Option.some_injective _ h]
        decide
      · rw [← Option.some_injective _ h]
        decide
  · simp only [hloop] at h
    obtain ⟨n, hn⟩ := findNodeLoop_mem hloop
    have hw : w = u := Option.some_injective _ h
    subst hw
    exact hkeys (w, n) hn

/-! ## Concrete graphs used to instantiate the path-search claims -/

/-- Two-node graph `aa — bb` with well-behaved (non-empty) ids. -/
def gPair : NavGraph :=
  ⟨[("aa", ⟨(0, 0), 0⟩), ("bb", ⟨(0, 0), 0⟩)], [("aa", "bb")]⟩

/-- Graph whose only route from `xx` to `yy` passes through a node whose id
is the empty string — a falsy value for the JavaScript truthiness guards. -/
def gEmptyId : NavGraph :=
  ⟨[("xx", ⟨(0, 0), 0⟩), ("yy", ⟨(0, 0), 0⟩), ("", ⟨(0, 0), 0⟩)],
   [("xx", ""), ("", "yy")]⟩

theorem gPair_run : findPathIds gPair [] "aa" "bb" = some ["aa", "bb"] := by
  have h1 : findNodeByName gPair [] "aa" = some "aa" := by decide
  have h2 : findNodeByName gPair [] "bb" = some "bb" := by decide
  simp only [findPathIds, h1, h2]
  rw [if_neg (fun hc => hc.elim (by decide) (by decide))]
  simp [bfsLoop, scanEdges, neighborOf, gPair]

/-! ## Claims C1, C7, C9: the path search -/

/-- C1, counterexample to the claim as stated: in `gEmptyId` both names
`"xx"` and `"yy"` resolve to graph nodes and the destination is reachable
from the origin (via the node with the empty-string id), yet `findPath`
returns null: the empty id is falsy, so the guard `neighbor &&` at
app.js:516 refuses to traverse into it. -/
theorem findPath_c1_counterexample :
    findNodeByName gEmptyId [] "xx" = some "xx" ∧
    findNodeByName gEmptyId [] "yy" = some "yy" ∧
    (∃ n, ("xx", n) ∈ gEmptyId.nodes) ∧ (∃ n, ("yy", n) ∈ gEmptyId.nodes) ∧
    ReachableIn gEmptyId.edges "xx" "yy" ∧
    findPathIds gEmptyId [] "xx" "yy" = none := by
  refine ⟨by decide, by decide, ⟨⟨(0, 0), 0⟩, List.mem_cons_self _ _⟩,
    ⟨⟨(0, 0), 0⟩, List.mem_cons_of_mem _ (List.mem_cons_self _ _)⟩,
    ⟨["xx", "", "yy"], ⟨rfl, rfl, by simp [Adj, gEmptyId]⟩⟩, ?_⟩
  have h1 : findNodeByName gEmptyId [] "xx" = some "xx" := by decide
  have h2 : findNodeByName gEmptyId [] "yy" = some "yy" := by decide
  simp only [findPathIds, h1, h2]
  rw [if_neg (fun hc => hc.elim (by decide) (by decide))]
  simp [bfsLoop, scanEdges, neighborOf, gEmptyId]

/-- C1 (amended): provided no id occurring in the edge list and neither
resolved endpoint is the empty string, `findPath(a, b)` on resolvable names
with a reachable destination returns a non-empty id sequence that starts at
the node resolved from `a`, ends at the node resolved from `b`, steps only
along edges of the graph, and has minimum length among all walks between the
two resolved nodes; the JS return value is this sequence looked up in the
node table. -/
theorem findPath_bfs_correct (g : NavGraph) (feats : List NamedFeature)
    (a b u v : String)
    (hne : ∀ e ∈ g.edges, e.1 ≠ "" ∧ e.2 ≠ "")
    (hu : findNodeByName g feats a = some u)
    (hv : findNodeByName g feats b = some v)
    (hu0 : u ≠ "") (hv0 : v ≠ "")
    (hreach : ReachableIn g.edges u v) :
    ∃ ids, findPathIds g feats a b = some ids ∧ ids ≠ [] ∧
      ids.head? = some u ∧ ids.getLast? = some v ∧
      ids.Chain' (Adj g.edges) ∧
      (∀ l, IsWalkRel (Adj g.edges) u v l → ids.length ≤ l.length) ∧
      findPath g feats a b = some (ids.map (lookupNode g)) := by
  have hrun : findPathIds g feats a b = bfsLoop g.edges v [(u, [u])] [u] := by
    simp only [findPathIds, hu, hv]
    rw [if_neg (fun hc => hc.elim hu0 hv0)]
  have hcorr := bfsLoop_correct g.edges v u [(u, [u])] [u]
    (bfsInv_init g.edges u v)
  rcases hres : bfsLoop g.edges v [(u, [u])] [u] with - | p
  · obtain ⟨l, hl⟩ := hreach
    exact absurd (isWalkRel_adjT_of_adj hne hl) (hcorr.2 hres l)
  · obtain ⟨hwalk, hnodup, hmin⟩ := hcorr.1 p hres
    have hadjwalk := isWalkRel_adj_of_adjT hwalk
    refine ⟨p, by rw [hrun, hres], hadjwalk.ne_nil, hadjwalk.1,
      hadjwalk.2.1, hadjwalk.2.2, ?_, ?_⟩
    · intro l hlw
      exact hmin.2 l (isWalkRel_adjT_of_adj hne hlw)
    · rw [findPath, hrun, hres]
      rfl

/-- C1 witness: the amended theorem instantiated on the two-node graph
`gPair`, all hypotheses discharged concretely. -/
theorem findPath_bfs_correct_witness :
    ((∀ e ∈ gPair.edges, e.1 ≠ "" ∧ e.2 ≠ "") ∧
      findNodeByName gPair [] "aa" = some "aa" ∧
      findNodeByName gPair [] "bb" = some "bb" ∧
      ReachableIn gPair.edges "aa" "bb") ∧
    ∃ ids, findPathIds gPair [] "aa" "bb" = some ids ∧ ids ≠ [] ∧
      ids.head? = some "aa" ∧ ids.getLast? = some "bb" ∧
      ids.Chain' (Adj gPair.edges) ∧
      (∀ l, IsWalkRel (Adj gPair.edges) "aa" "bb" l →
        ids.length ≤ l.length) ∧
      findPath gPair [] "aa" "bb" = some (ids.map (lookupNode gPair)) :=
  ⟨⟨by decide, by decide, by decide,
      ⟨["aa", "bb"], ⟨rfl, rfl, by simp [Adj, gPair]⟩⟩⟩,
    findPath_bfs_correct gPair [] "aa" "bb" "aa" "bb" (by decide) (by decide)
      (by decide) (by decide) (by decide)
      ⟨["aa", "bb"], ⟨rfl, rfl, by simp [Adj, gPair]⟩⟩⟩

/-- C7, counterexample to the claim as stated: `findPath` on `gEmptyId`
returns null although both names resolve and the resolved destination is
reachable from the resolved origin, so "null iff a name fails to resolve or
the destination is unreachable" fails. -/
theorem findPath_c7_counterexample :
    findPathIds gEmptyId [] "xx" "yy" = none ∧
    (∃ u, findNodeByName gEmptyId [] "xx" = some u) ∧
    (∃ v, findNodeByName gEmptyId [] "yy" = some v) ∧
    ∀ u v, findNodeByName gEmptyId [] "xx" = some u →
      findNodeByName gEmptyId [] "yy" = some v →
      ReachableIn gEmptyId.edges u v := by
  have h1 : findNodeByName gEmptyId [] "xx" = some "xx" := by decide
  have h2 : findNodeByName gEmptyId [] "yy" = some "yy" := by decide
  refine ⟨?_, ⟨"xx", h1⟩, ⟨"yy", h2⟩, ?_⟩
  · simp only [findPathIds, h1, h2]
    rw [if_neg (fun hc => hc.elim (by decide) (by decide))]
    simp [bfsLoop, scanEdges, neighborOf, gEmptyId]
  · intro u v hu hv
    rw [h1] at hu
    rw [h2] at hv
    obtain rfl := Option.some_injective _ hu.symm
    obtain rfl := Option.some_injective _ hv.symm
    exact ⟨["xx", "", "yy"], ⟨rfl, rfl, by simp [Adj, gEmptyId]⟩⟩

/-- C7 (amended): provided no node key and no edge endpoint is the empty
string, `findPath` returns null exactly when a name fails to resolve or the
resolved destination is unreachable from the resolved origin; and a non-null
result is always a complete edge-path from the resolved origin to the
resolved destination, never a partial one. -/
theorem findPath_none_iff (g : NavGraph) (feats : List NamedFeature)
    (a b : String)
    (hne : ∀ e ∈ g.edges, e.1 ≠ "" ∧ e.2 ≠ "")
    (hkeys : ∀ q ∈ g.nodes, q.1 ≠ "") :
    (findPathIds g feats a b = none ↔
      findNodeByName g feats a = none ∨ findNodeByName g feats b = none ∨
      ∃ u v, findNodeByName g feats a = some u ∧
        findNodeByName g feats b = some v ∧ ¬ ReachableIn g.edges u v) ∧
    ∀ ids, findPathIds g feats a b = some ids →
      ∃ u v, findNodeByName g feats a = some u ∧
        findNodeByName g feats b = some v ∧
        ids.head? = some u ∧ ids.getLast? = some v ∧
        ids.Chain' (Adj g.edges) := by
  rcases hu : findNodeByName g feats a with - | u
  · have hrun : findPathIds g feats a b = none := by
      simp only [findPathIds, hu]
    refine ⟨iff_of_true hrun (Or.inl rfl), ?_⟩
    intro ids hids
    rw [hrun] at hids
    cases hids
  rcases hv : findNodeByName g feats b with - | v
  · have hrun : findPathIds g feats a b = none := by
      simp only [findPathIds, hu, hv]
    refine ⟨iff_of_true hrun (Or.inr (Or.inl rfl)), ?_⟩
    intro ids hids
    rw [hrun] at hids
    cases hids
  have hu0 : u ≠ "" := findNodeByName_ne_empty hkeys hu
  have hv0 : v ≠ "" := findNodeByName_ne_empty hkeys hv
  have hrun : findPathIds g feats a b = bfsLoop g.edges v [(u, [u])] [u] := by
    simp only [findPathIds, hu, hv]
    rw [if_neg (fun hc => hc.elim hu0 hv0)]
  have hcorr := bfsLoop_correct g.edges v u [(u, [u])] [u]
    (bfsInv_init g.edges u v)
  rcases hres : bfsLoop g.edges v [(u, [u])] [u] with - | p
  · rw [hres] at hrun
    refine ⟨iff_of_true hrun (Or.inr (Or.inr ⟨u, v, rfl, rfl, ?_⟩)), ?_⟩
    · rintro ⟨l, hl⟩
      exact hcorr.2 hres l (isWalkRel_adjT_of_adj hne hl)
    · intro ids hids
      rw [hrun] at hids
      cases hids
  · obtain ⟨hwalk, hnodup, hmin⟩ := hcorr.1 p hres
    have hadjwalk := isWalkRel_adj_of_adjT hwalk
    rw [hres] at hrun
    constructor
    · refine iff_of_false (by rw [hrun]; intro hc; cases hc) ?_
      rintro (hc | hc | ⟨u', v', hu', hv', hnr⟩)
      · cases hc
      · cases hc
      · obtain rfl := Option.some_injective _ hu'.symm
        obtain rfl := Option.some_injective _ hv'.symm
        exact hnr ⟨p, hadjwalk⟩
    · intro ids hids
      rw [hrun] at hids
      obtain rfl := Option.some_injective _ hids.symm
      exact ⟨u, v, rfl, rfl, hadjwalk.1, hadjwalk.2.1, hadjwalk.2.2⟩

/-- C7 witness: the amended theorem instantiated on `gPair`. -/
theorem findPath_none_iff_witness :
    ((∀ e ∈ gPair.edges, e.1 ≠ "" ∧ e.2 ≠ "") ∧
      (∀ q ∈ gPair.nodes, q.1 ≠ "")) ∧
    ((findPathIds gPair [] "aa" "bb" = none ↔
      findNodeByName gPair [] "aa" = none ∨
      findNodeByName gPair [] "bb" = none ∨
      ∃ u v, findNodeByName gPair [] "aa" = some u ∧
        findNodeByName gPair [] "bb" = some v ∧
        ¬ ReachableIn gPair.edges u v) ∧
    ∀ ids, findPathIds gPair [] "aa" "bb" = some ids →
      ∃ u v, findNodeByName gPair [] "aa" = some u ∧
        findNodeByName gPair [] "bb" = some v ∧
        ids.head? = some u ∧ ids.getLast? = some v ∧
        ids.Chain' (Adj gPair.edges)) :=
  ⟨⟨by decide, by decide⟩,
    findPath_none_iff gPair [] "aa" "bb" (by decide) (by decide)⟩

/-- C9: any path the BFS returns is simple — it repeats no node id.  (The
BFS itself is total: `bfsLoop` is accepted by well-founded recursion on the
count of unvisited edge-endpoint ids paired with the queue length, which is
exactly the "each node is enqueued at most once" argument.) -/
theorem findPath_simple (g : NavGraph) (feats : List NamedFeature)
    (a b : String) (ids : List String)
    (h : findPathIds g feats a b = some ids) : ids.Nodup := by
  rcases hu : findNodeByName g feats a with - | u
  · simp only [findPathIds, hu] at h
    cases h
  rcases hv : findNodeByName g feats b with - | v
  · simp only [findPathIds, hu, hv] at h
    cases h
  have h2 : (if u = "" ∨ v = "" then none
      else bfsLoop g.edges v [(u, [u])] [u]) = some ids := by
    rw [← h]
    simp only [findPathIds, hu, hv]
  by_cases h0 : u = "" ∨ v = ""
  · rw [if_pos h0] at h2
    cases h2
  · rw [if_neg h0] at h2
    exact ((bfsLoop_correct g.edges v u [(u, [u])] [u]
      (bfsInv_init g.edges u v)).1 ids h2).2.1

/-- C9 witness: the simplicity theorem applied to the concrete run on
`gPair`. -/
theorem findPath_simple_witness :
    findPathIds gPair [] "aa" "bb" = some ["aa", "bb"] ∧
    (["aa", "bb"] : List String).Nodup :=
  ⟨gPair_run, findPath_simple gPair [] "aa" "bb" ["aa", "bb"] gPair_run⟩

/-! ## Claim C3: order of the resolver's two matching tests -/

/-- Two-node graph: `g_abc` fails the plain test for the name `abcx` but
passes the prefix-stripped test; `abcx` passes the plain test. -/
def gC3 : NavGraph :=
  ⟨[("g_abc", ⟨(0, 0), 0⟩), ("abcx", ⟨(0, 0), 0⟩)], []⟩

/-- C3, counterexample to the claim as stated: for the input `"abcx"` the
node `"abcx"` passes the plain bidirectional-substring test, yet the
resolver returns `"g_abc"`, which does not pass the plain test — it was
accepted by the prefix-stripped test, consulted for `g_abc` before the
plain test was ever tried on the later node. -/
theorem findNodeByName_c3_counterexample :
    plainMatch (normalize "abcx".data) "abcx" = true ∧
    plainMatch (normalize "abcx".data) "g_abc" = false ∧
    strippedMatch (normalize "abcx".data) "g_abc" = true ∧
    findNodeByName gC3 [] "abcx" = some "g_abc" := by
  decide

/-- C3 (amended): the two tests are interleaved per node, not layered —
`findNodeByName` returns the first node in iteration order that passes the
plain test or the prefix-stripped test, falling back to the walkway lookup
when no node passes either. -/
theorem findNodeByName_first_match (g : NavGraph) (feats : List NamedFeature)
    (name : String) :
    findNodeByName g feats name =
      match g.nodes.find? (fun q => plainMatch (normalize name.data) q.1 ||
          strippedMatch (normalize name.data) q.1) with
      | some q => some q.1
      | none => fallbackNode feats name := by
  rw [findNodeByName]
  have hloop : ∀ nodes : List (String × NavNode),
      findNodeLoop (normalize name.data) nodes =
        (nodes.find? (fun q => plainMatch (normalize name.data) q.1 ||
          strippedMatch (normalize name.data) q.1)).map Prod.fst := by
    intro nodes
    induction nodes with
    | nil => rfl
    | cons q rest ih =>
      obtain ⟨id, n⟩ := q
      rw [findNodeLoop]
      by_cases h1 : plainMatch (normalize name.data) id
      · rw [if_pos h1, List.find?_cons_of_pos _ (by simp [h1])]
        rfl
      · rw [if_neg h1]
        by_cases h2 : strippedMatch (normalize name.data) id
        · rw [if_pos h2, List.find?_cons_of_pos _ (by simp [h2])]
          rfl
        · rw [if_neg h2, List.find?_cons_of_neg _ (by simp [h1, h2])]
          exact ih
  rw [hloop g.nodes]
  rcases hfind : g.nodes.find? (fun q => plainMatch (normalize name.data) q.1 ||
      strippedMatch (normalize name.data) q.1) with - | q
  · rw [hfind]
    rfl
  · rw [hfind]
    rfl

/-! ## Visibility filter: `updateFloorFilter` (app.js:1282-1354)

The MapLibre filter expression built at app.js:1303-1336 is embedded as a
boolean predicate over the properties it reads (`level`, `category`, `name`,
and the promoted feature id). -/

/-- The fields of a feature read by the room-extrusion filter. -/
structure FilterFeature where
  id : ℕ
  level : ℤ
  category : String
  name : Option String

/-- MapLibre `["in", "Elevator", ["get", "name"]]` (app.js:1319): substring
containment, false when the feature has no `name`. -/
def nameHasElevator (name : Option String) : Bool :=
  match name with
  | some s => includesList s.data "Elevator".data
  | none => false

/-- The filter built for `room-extrusion` in the non-`isAll` branch of
`updateFloorFilter` (app.js:1303-1336): an `any` group — level in
`activeFloors` (app.js:1304), level = -1 (app.js:1308), id in `specialIds`
(pushed only when the list is non-empty, app.js:1326-1333) — wrapped in an
`all` with, when `hideElevator` is set, the two clauses of app.js:1318-1319
excluding elevator-categorized features and features whose name contains
"Elevator". -/
def featureVisible (activeFloors : List ℤ) (specialIds : List ℕ)
    (hideElevator : Bool) (f : FilterFeature) : Bool :=
  (decide (f.level ∈ activeFloors) || decide (f.level = -1) ||
    (if specialIds ≠ [] then decide (f.id ∈ specialIds) else false)) &&
  (if hideElevator then
    decide (f.category ≠ "elevator") && !(nameHasElevator f.name)
  else true)

/-- The whole of `updateFloorFilter`'s feature filtering, including the
`floors === -1` show-everything escape (app.js:1286, 1291-1292) and the
array wrapping `Array.isArray(floors) ? floors : [floors]` (app.js:1285). -/
def roomFilterVisible (floors : ℤ ⊕ List ℤ) (specialIds : List ℕ)
    (hideElevator : Bool) (f : FilterFeature) : Bool :=
  if floors = Sum.inl (-1) then true
  else
    featureVisible (match floors with
      | Sum.inl n => [n]
      | Sum.inr l => l) specialIds hideElevator f

/-- The visibility rule exactly as the claim words it: floor in the active
set, OR floor = -1 and not (elevator-categorized and hideElevator), OR id in
the always-visible set. -/
def claimVisibleRule (activeFloors : List ℤ) (alwaysVisibleIds : List ℕ)
    (hideElevator : Bool) (f : FilterFeature) : Prop :=
  f.level ∈ activeFloors ∨
  (f.level = -1 ∧ ¬ (f.category = "elevator" ∧ hideElevator = true)) ∨
  f.id ∈ alwaysVisibleIds

/-- C2, counterexample to the claim as stated: with `hideElevator` set, an
elevator-categorized feature on an active floor is hidden by the filter
(the elevator-exclusion clauses sit in the outer `all`, applying at every
level), although the claimed rule makes it visible via its floor. -/
theorem updateFloorFilter_c2_counterexample :
    claimVisibleRule [0] [] true ⟨1, 0, "elevator", none⟩ ∧
    featureVisible [0] [] true ⟨1, 0, "elevator", none⟩ = false := by
  constructor
  · exact Or.inl (by decide)
  · decide

/-- C2 (amended): a feature is visible iff (its level is in `activeFloors`,
OR its level is -1, OR its id is in `specialIds`) AND (when `hideElevator`
is set, it is not elevator-categorized and its name does not contain
"Elevator") — the elevator-hide clauses apply to every feature, not only to
level -1 ones.  The claim's worked example still holds: with
`activeFloors = {0}` and `alwaysVisibleIds = {42}`, `{id: 42, level: 2}` is
visible and `{id: 7, level: 2}` is not. -/
theorem featureVisible_iff :
    (∀ (activeFloors : List ℤ) (specialIds : List ℕ) (hideElevator : Bool)
      (f : FilterFeature),
      featureVisible activeFloors specialIds hideElevator f = true ↔
        ((f.level ∈ activeFloors ∨ f.level = -1 ∨ f.id ∈ specialIds) ∧
          (hideElevator = true →
            f.category ≠ "elevator" ∧ nameHasElevator f.name = false))) ∧
    featureVisible [0] [42] false ⟨42, 2, "store", none⟩ = true ∧
    featureVisible [0] [42] false ⟨7, 2, "store", none⟩ = false := by
  refine ⟨?_, by decide, by decide⟩
  intro activeFloors specialIds hideElevator f
  rw [featureVisible]
  by_cases hs : specialIds = []
  · subst hs
    cases hideElevator <;>
      simp [List.not_mem_nil, Bool.and_eq_true, Bool.or_eq_true,
        decide_eq_true_eq, Bool.not_eq_true']
  · rw [if_pos hs]
    cases hideElevator <;>
      simp [Bool.and_eq_true, Bool.or_eq_true, decide_eq_true_eq,
        Bool.not_eq_true'] <;>
      tauto

/-! ## Geometry preprocessor: `addFloorplanLayers` (app.js:229-251)

Only the feature-rewriting map at app.js:229-251 is embedded (the rest of
the function registers rendering layers).  A JavaScript property value is
seen by this code only through `v == null` and `Number(v)`, so it is
modelled by that observation: `absent` (`null`/`undefined`), `nan` (any
other value whose `Number` conversion is `NaN`), or `num x`. -/

/-- A raw property value as observed by `== null` and `Number(...)`. -/
inductive JSVal where
  | absent : JSVal
  | nan : JSVal
  | num : ℝ → JSVal

/-- The raw `feature.properties` fields the preprocessor touches. -/
structure RawProps where
  color : Option String
  height : JSVal
  base_height : JSVal
  level : JSVal
  category : Option String
  isOutline : Option Bool

/-- `{}` — the empty properties object installed by
`if (!feature.properties) feature.properties = {}` (app.js:231). -/
def emptyRawProps : RawProps := ⟨none, .absent, .absent, .absent, none, none⟩

/-- A processed feature: the top-level `id` (app.js:250), `properties.id`
(app.js:234) and the resolved property fields. -/
structure ProcFeature where
  id : ℕ
  propsId : ℕ
  color : String
  height : ℝ
  base_height : ℝ
  level : ℝ
  category : String
  isOutline : Bool

/-- `(v == null) ? d : Number(v); if (isNaN(…)) … = d` (app.js:238-245). -/
def resolveNum (v : JSVal) (d : ℝ) : ℝ :=
  match v with
  | .absent => d
  | .nan => d
  | .num x => x

/-- The body of the `floorplanData.features.map((feature, index) => …)`
callback (app.js:229-250). -/
def processFeature (i : ℕ) (rf : Option RawProps) : ProcFeature :=
  let props := rf.getD emptyRawProps
  { id := i
    propsId := i
    color := props.color.getD "#cccccc"
    height := resolveNum props.height 3
    base_height := resolveNum props.base_height 0
    level := resolveNum props.level 0
    category := props.category.getD "common"
    isOutline := props.isOutline.getD false }

/-- `features.map((feature, index) => …)` (app.js:229), with the running
index made explicit. -/
def assignFeatureIds (i : ℕ) : List (Option RawProps) → List ProcFeature
  | [] => []
  | rf :: t => processFeature i rf :: assignFeatureIds (i + 1) t

/-- The whole preprocessing pass over the working feature collection. -/
def preprocessFeatures (fs : List (Option RawProps)) : List ProcFeature :=
  assignFeatureIds 0 fs

theorem assignFeatureIds_get (k : ℕ) :
    ∀ (fs : List (Option RawProps)) (i : ℕ),
    (assignFeatureIds k fs).get? i = (fs.get? i).map (processFeature (k + i)) := by
  intro fs
  induction fs generalizing k with
  | nil =>
    intro i
    rfl
  | cons rf t ih =>
    intro i
    cases i with
    | zero => rfl
    | succ j =>
      rw [assignFeatureIds]
      have h := ih (k + 1) j
      simp only [List.get?_cons_succ, h]
      have harith : k + 1 + j = k + (j + 1) := by omega
      rw [harith]

/-- C8: after preprocessing, the feature at position `i` carries `id = i`
(both the promoted feature id and `properties.id`), and its `height`,
`base_height`, `level`, `category` and `isOutline` are the original values
when those are present and numeric (resp. present), and the defaults
`3, 0, 0, "common", false` when absent or non-numeric; the collection keeps
its length, and every numeric field is a real number — no null or NaN
survives. -/
theorem preprocess_defaults :
    (∀ fs : List (Option RawProps),
      (preprocessFeatures fs).length = fs.length) ∧
    ∀ (fs : List (Option RawProps)) (i : ℕ) (rf : Option RawProps),
      fs.get? i = some rf →
      ∃ out, (preprocessFeatures fs).get? i = some out ∧
        out.id = i ∧ out.propsId = i ∧
        (∀ x, (rf.getD emptyRawProps).height = .num x → out.height = x) ∧
        ((rf.getD emptyRawProps).height = .absent ∨
          (rf.getD emptyRawProps).height = .nan → out.height = 3) ∧
        (∀ x, (rf.getD emptyRawProps).base_height = .num x →
          out.base_height = x) ∧
        ((rf.getD emptyRawProps).base_height = .absent ∨
          (rf.getD emptyRawProps).base_height = .nan →
          out.base_height = 0) ∧
        (∀ x, (rf.getD emptyRawProps).level = .num x → out.level = x) ∧
        ((rf.getD emptyRawProps).level = .absent ∨
          (rf.getD emptyRawProps).level = .nan → out.level = 0) ∧
        (∀ s, (rf.getD emptyRawProps).category = some s →
          out.category = s) ∧
        ((rf.getD emptyRawProps).category = none →
          out.category = "common") ∧
        (∀ o, (rf.getD emptyRawProps).isOutline = some o →
          out.isOutline = o) ∧
        ((rf.getD emptyRawProps).isOutline = none →
          out.isOutline = false) := by
  constructor
  · intro fs
    rw [preprocessFeatures]
    have hlen : ∀ (fs : List (Option RawProps)) (k : ℕ),
        (assignFeatureIds k fs).length = fs.length := by
      intro fs
      induction fs with
      | nil =>
        intro k
        rfl
      | cons rf t ih =>
        intro k
        rw [assignFeatureIds, List.length_cons, List.length_cons, ih]
    exact hlen fs 0
  · intro fs i rf h
    refine ⟨processFeature i rf, ?_, rfl, rfl, ?_, ?_, ?_, ?_, ?_, ?_, ?_,
      ?_, ?_, ?_⟩
    · rw [preprocessFeatures, assignFeatureIds_get 0 fs i, h]
      rw [Nat.zero_add]
      rfl
    · intro x hx
      simp [processFeature, resolveNum, hx]
    · intro hx
      rcases hx with hx | hx <;> simp [processFeature, resolveNum, hx]
    · intro x hx
      simp [processFeature, resolveNum, hx]
    · intro hx
      rcases hx with hx | hx <;> simp [processFeature, resolveNum, hx]
    · intro x hx
      simp [processFeature, resolveNum, hx]
    · intro hx
      rcases hx with hx | hx <;> simp [processFeature, resolveNum, hx]
    · intro s hs
      simp [processFeature, hs]
    · intro hs
      simp [processFeature, hs]
    · intro o ho
      simp [processFeature, ho]
    · intro ho
      simp [processFeature, ho]

/-- C8 witness: the defaults theorem applied to a one-feature collection
whose height is a `NaN`-converting value, `base_height` is the number 7,
and the other fields are absent. -/
theorem preprocess_defaults_witness :
    ([some (⟨none, .nan, .num 7, .absent, none, none⟩ : RawProps)].get? 0 =
      some (some ⟨none, .nan, .num 7, .absent, none, none⟩)) ∧
    ∃ out, (preprocessFeatures
        [some ⟨none, .nan, .num 7, .absent, none, none⟩]).get? 0 =
        some out ∧ out.id = 0 ∧ out.propsId = 0 ∧
        out.height = 3 ∧ out.base_height = 7 ∧ out.level = 0 ∧
        out.category = "common" ∧ out.isOutline = false := by
  refine ⟨rfl, ?_⟩
  obtain ⟨out, h1, h2, h3, h4, h5, h6, h7, h8, h9, h10, h11, h12, h13⟩ :=
    preprocess_defaults.2 [some ⟨none, .nan, .num 7, .absent, none, none⟩]
      0 (some ⟨none, .nan, .num 7, .absent, none, none⟩) rfl
  exact ⟨out, h1, h2, h3, h5 (Or.inr rfl), h6 7 rfl, h9 (Or.inl rfl),
    h11 rfl, h13 rfl⟩

/-! ## Distance and walking-time metrics (app.js:626-692)

Real-number functions; `Math.sin`, `Math.cos`, `Math.atan2`, `Math.sqrt` are
the mathematical functions on `ℝ`, `Math.ceil` is `Int.ceil`. -/

/-- `deg2rad` (app.js:690-692). -/
noncomputable def deg2rad (deg : ℝ) : ℝ := deg * (Real.pi / 180)

/-- JavaScript `Math.atan2(y, x)` on real inputs. -/
noncomputable def atan2 (y x : ℝ) : ℝ :=
  if 0 < x then Real.arctan (y / x)
  else if x < 0 ∧ 0 ≤ y then Real.arctan (y / x) + Real.pi
  else if x < 0 then Real.arctan (y / x) - Real.pi
  else if 0 < y then Real.pi / 2
  else if y < 0 then -(Real.pi / 2)
  else 0

/-- `calculateDistance(coord1, coord2)` (app.js:676-688): haversine with
Earth radius 6371 km, result in km; a coordinate is `[lng, lat]`. -/
noncomputable def calculateDistance (c1 c2 : ℝ × ℝ) : ℝ :=
  let R : ℝ := 6371
  let dLat := deg2rad (c2.2 - c1.2)
  let dLon := deg2rad (c2.1 - c1.1)
  let a := Real.sin (dLat / 2) * Real.sin (dLat / 2) +
    Real.cos (deg2rad c1.2) * Real.cos (deg2rad c2.2) *
    Real.sin (dLon / 2) * Real.sin (dLon / 2)
  let c := 2 * atan2 (Real.sqrt a) (Real.sqrt (1 - a))
  R * c

/-- `calculateTotalDistance(coords)` (app.js:667-673): sum of consecutive
haversine distances, converted km → m. -/
noncomputable def calculateTotalDistance : List (ℝ × ℝ) → ℝ
  | [] => 0
  | [_] => 0
  | c1 :: c2 :: t =>
    calculateDistance c1 c2 * 1000 + calculateTotalDistance (c2 :: t)

/-- The estimated-time computation of `calculateNavigation` (app.js:628-631):
`Math.ceil(distance / 1.4 + Math.abs(toLevel - fromLevel) * 45)` seconds,
where the levels are those of the endpoint features. -/
noncomputable def walkingTime (coords : List (ℝ × ℝ))
    (fromLevel toLevel : ℝ) : ℤ :=
  ⌈calculateTotalDistance coords / 1.4 + |toLevel - fromLevel| * 45⌉

theorem atan2_sin_cos {t : ℝ} (h0 : -(Real.pi / 2) < t)
    (h1 : t < Real.pi / 2) : atan2 (Real.sin t) (Real.cos t) = t := by
  have hc : 0 < Real.cos t := Real.cos_pos_of_mem_Ioo ⟨h0, h1⟩
  rw [atan2, if_pos hc, ← Real.tan_eq_sin_div_cos, Real.arctan_tan h0 h1]

/-- On two points sharing a longitude, with a small nonnegative latitude
difference, the haversine collapses to radius times angle. -/
theorem calculateDistance_lat (lng lat1 lat2 : ℝ)
    (h0 : 0 ≤ deg2rad (lat2 - lat1)) (h1 : deg2rad (lat2 - lat1) < Real.pi) :
    calculateDistance (lng, lat1) (lng, lat2) = 6371 * deg2rad (lat2 - lat1) := by
  set t := deg2rad (lat2 - lat1) with ht
  have hlon : deg2rad ((lng, lat2).1 - (lng, lat1).1) = 0 := by
    simp [deg2rad]
  have hsin0 : Real.sin (deg2rad ((lng, lat2).1 - (lng, lat1).1) / 2) = 0 := by
    rw [hlon]
    simp
  have hs : 0 ≤ Real.sin (t / 2) :=
    Real.sin_nonneg_of_nonneg_of_le_pi (by linarith) (by linarith [Real.pi_pos])
  have hc : 0 < Real.cos (t / 2) :=
    Real.cos_pos_of_mem_Ioo ⟨by linarith [Real.pi_pos], by linarith⟩
  rw [calculateDistance]
  simp only [hsin0, mul_zero, zero_mul, add_zero]
  have hsq : Real.sqrt (Real.sin (t / 2) * Real.sin (t / 2)) =
      Real.sin (t / 2) := Real.sqrt_mul_self hs
  have hone : 1 - Real.sin (t / 2) * Real.sin (t / 2) =
      Real.cos (t / 2) * Real.cos (t / 2) := by
    have hpy := Real.sin_sq_add_cos_sq (t / 2)
    nlinarith [hpy]
  have hsqc : Real.sqrt (Real.cos (t / 2) * Real.cos (t / 2)) =
      Real.cos (t / 2) := Real.sqrt_mul_self (le_of_lt hc)
  rw [show deg2rad ((lng, lat2).2 - (lng, lat1).2) = t from rfl]
  rw [hsq, hone, hsqc]
  rw [atan2_sin_cos (by linarith [Real.pi_pos]) (by linarith)]
  ring

theorem deg2rad_milli_nonneg : 0 ≤ deg2rad 0.001 := by
  rw [deg2rad]
  positivity

theorem deg2rad_milli_lt_pi : deg2rad 0.001 < Real.pi := by
  rw [deg2rad]
  nlinarith [Real.pi_pos, Real.pi_lt_d6]

theorem deg2rad_milli_pos : 0 < deg2rad 0.001 := by
  rw [deg2rad]
  positivity

/-- The worked metric example: one segment from `[0,0]` to `[0,0.001]`. -/
theorem totalDistance_example :
    calculateTotalDistance [((0 : ℝ), (0 : ℝ)), (0, 0.001)] =
      6371000 * deg2rad 0.001 := by
  have hsub : (0.001 : ℝ) - 0 = 0.001 := by
    norm_num
  rw [calculateTotalDistance, calculateTotalDistance,
    calculateDistance_lat 0 0 0.001 (by rw [hsub]; exact deg2rad_milli_nonneg)
      (by rw [hsub]; exact deg2rad_milli_lt_pi), hsub]
  ring

/-- C5: the estimated time is `ceil(D / 1.4 + |toLevel - fromLevel| * 45)`
seconds with `D` the summed haversine distance in meters and the floor
penalty taken from the endpoint feature levels only; on the single segment
`[0,0] → [0,0.001]` with no floor change, `D` is ≈ 111.19 m and the ETA is
`ceil(D / 1.4) = 80` seconds. -/
theorem calculateNavigation_eta :
    (∀ (coords : List (ℝ × ℝ)) (fromLevel toLevel : ℝ),
      walkingTime coords fromLevel toLevel =
        ⌈calculateTotalDistance coords / 1.4 + |toLevel - fromLevel| * 45⌉) ∧
    (111 : ℝ) < calculateTotalDistance [((0 : ℝ), (0 : ℝ)), (0, 0.001)] ∧
    calculateTotalDistance [((0 : ℝ), (0 : ℝ)), (0, 0.001)] < 111.2 ∧
    walkingTime [((0 : ℝ), (0 : ℝ)), (0, 0.001)] 0 0 = 80 := by
  have hD := totalDistance_example
  have hval : (6371000 : ℝ) * deg2rad 0.001 = 6371 * Real.pi / 180 := by
    rw [deg2rad]
    ring
  refine ⟨fun coords fromLevel toLevel => rfl, ?_, ?_, ?_⟩
  · rw [hD, hval]
    have h := Real.pi_gt_d6
    norm_num at h ⊢
    linarith
  · rw [hD, hval]
    have h := Real.pi_lt_d6
    norm_num at h ⊢
    linarith
  · rw [walkingTime, hD, hval]
    have habs : |(0 : ℝ) - 0| * 45 = 0 := by
      norm_num
    rw [habs, add_zero]
    have hkey : (6371 : ℝ) * Real.pi / 180 / 1.4 = 6371 * Real.pi / 252 := by
      ring
    rw [hkey, Int.ceil_eq_iff]
    push_cast
    constructor
    · have h := Real.pi_gt_d6
      norm_num at h ⊢
      linarith
    · have h := Real.pi_lt_d6
      norm_num at h ⊢
      linarith

/-! ## Animation distance model and sampler
(app.js:1188-1199, 1202-1231, 1059-1089) -/

/-- An interpolated sample: coordinates and a (possibly fractional) floor. -/
structure SamplePoint where
  coords : ℝ × ℝ
  floor : ℝ

/-- The per-segment length of the animation model (app.js:1190-1196 and
1205-1212): `|floorDiff| * 4` meters when the floors differ, haversine
meters otherwise. -/
noncomputable def segLength (a b : NavNode) : ℝ :=
  if 0 < |(b.floor : ℝ) - (a.floor : ℝ)| then
    |(b.floor : ℝ) - (a.floor : ℝ)| * 4
  else calculateDistance a.coords b.coords * 1000

/-- `calculateTotalDistanceWithElevators(nodes)` (app.js:1188-1199). -/
noncomputable def calculateTotalDistanceWithElevators : List NavNode → ℝ
  | [] => 0
  | [_] => 0
  | a :: b :: t => segLength a b + calculateTotalDistanceWithElevators (b :: t)

/-- The loop of `getNavPointAtDistanceWithElevators` (app.js:1204-1229),
with the accumulated distance `d` explicit; falling off the loop returns the
last node's point (app.js:1230). -/
noncomputable def getNavPointAux (a : NavNode) :
    List NavNode → ℝ → ℝ → SamplePoint
  | [], _, _ => ⟨a.coords, (a.floor : ℝ)⟩
  | b :: t, dist, d =>
    if dist ≤ d + segLength a b then
      ⟨(a.coords.1 + (b.coords.1 - a.coords.1) * ((dist - d) / segLength a b),
        a.coords.2 + (b.coords.2 - a.coords.2) * ((dist - d) / segLength a b)),
        (a.floor : ℝ) +
          ((b.floor : ℝ) - (a.floor : ℝ)) * ((dist - d) / segLength a b)⟩
    else getNavPointAux b t dist (d + segLength a b)

/-- `getNavPointAtDistanceWithElevators(nodes, dist)` (app.js:1202-1231);
`none` models the `undefined` read of `nodes[-1]` on an empty list. -/
noncomputable def getNavPointAtDistanceWithElevators
    (nodes : List NavNode) (dist : ℝ) : Option SamplePoint :=
  match nodes with
  | [] => none
  | a :: t => some (getNavPointAux a t dist 0)

/-- The division side condition of the sampler, branch by branch: holds only
when the interpolation ratio actually computed has a non-zero denominator. -/
noncomputable def samplerDivOkAux (a : NavNode) :
    List NavNode → ℝ → ℝ → Prop
  | [], _, _ => True
  | b :: t, dist, d =>
    if dist ≤ d + segLength a b then segLength a b ≠ 0
    else samplerDivOkAux b t dist (d + segLength a b)

/-- Every segment of the node list has positive animation length. -/
def SegLengthsPos : List NavNode → Prop
  | a :: b :: t => 0 < segLength a b ∧ SegLengthsPos (b :: t)
  | _ => True

/-- `currentDist = progress * totalDist` followed by the sampler
(app.js:1067-1068). -/
noncomputable def sampleAtFraction (nodes : List NavNode) (p : ℝ) :
    Option SamplePoint :=
  getNavPointAtDistanceWithElevators nodes
    (p * calculateTotalDistanceWithElevators nodes)

/-- The wrap of the frame callback (app.js:1065):
`if (progress > 1) { progress = 0 }`. -/
noncomputable def wrapProgress (p : ℝ) : ℝ := if 1 < p then 0 else p

/-- The point of the last node of `a :: rest`. -/
def lastNavPoint (a : NavNode) (rest : List NavNode) : SamplePoint :=
  match rest.getLast? with
  | some b => ⟨b.coords, (b.floor : ℝ)⟩
  | none => ⟨a.coords, (a.floor : ℝ)⟩

theorem lastNavPoint_cons (a b : NavNode) (t : List NavNode) :
    lastNavPoint a (b :: t) = lastNavPoint b t := by
  cases t with
  | nil => rfl
  | cons c t' =>
    rw [lastNavPoint, lastNavPoint, List.getLast?_cons_cons]
    rcases h : (c :: t').getLast? with - | x
    · have hs : (c :: t').getLast?.isSome := List.getLast?_isSome.mpr (by simp)
      rw [h] at hs
      cases hs
    · simp only [h]

theorem totalWE_nonneg :
    ∀ (rest : List NavNode) (a : NavNode), SegLengthsPos (a :: rest) →
      0 ≤ calculateTotalDistanceWithElevators (a :: rest) := by
  intro rest
  induction rest with
  | nil =>
    intro a _
    rw [calculateTotalDistanceWithElevators]
  | cons b t ih =>
    intro a hpos
    rw [calculateTotalDistanceWithElevators]
    have h1 := hpos.1
    have h2 := ih b hpos.2
    linarith

theorem getNavPointAux_zero (a : NavNode) (rest : List NavNode)
    (hpos : SegLengthsPos (a :: rest)) :
    getNavPointAux a rest 0 0 = ⟨a.coords, (a.floor : ℝ)⟩ := by
  cases rest with
  | nil => rfl
  | cons b t =>
    rw [getNavPointAux, if_pos (by linarith [hpos.1])]
    simp

theorem getNavPointAux_end :
    ∀ (rest : List NavNode) (a : NavNode) (d dist : ℝ),
      SegLengthsPos (a :: rest) →
      d + calculateTotalDistanceWithElevators (a :: rest) ≤ dist →
      getNavPointAux a rest dist d = lastNavPoint a rest := by
  intro rest
  induction rest with
  | nil =>
    intro a d dist _ _
    rfl
  | cons b t ih =>
    intro a d dist hpos hle
    rw [calculateTotalDistanceWithElevators] at hle
    have hseg := hpos.1
    have htot := totalWE_nonneg t b hpos.2
    rw [getNavPointAux]
    by_cases hif : dist ≤ d + segLength a b
    · rw [if_pos hif]
      have htot0 : calculateTotalDistanceWithElevators (b :: t) = 0 := by
        linarith
      have hdist : dist = d + segLength a b := by
        linarith
      cases t with
      | nil =>
        have hr : (dist - d) / segLength a b = 1 := by
          rw [hdist]
          field_simp
        rw [hr]
        have hlp : lastNavPoint a [b] = ⟨b.coords, (b.floor : ℝ)⟩ := by
          rw [lastNavPoint, List.getLast?_singleton]
        have hx : a.coords.1 + (b.coords.1 - a.coords.1) * 1 = b.coords.1 := by
          ring
        have hy : a.coords.2 + (b.coords.2 - a.coords.2) * 1 = b.coords.2 := by
          ring
        have hf : (a.floor : ℝ) + ((b.floor : ℝ) - (a.floor : ℝ)) * 1 =
            (b.floor : ℝ) := by
          ring
        rw [hlp, hx, hy, hf, Prod.mk.eta]
      | cons c t' =>
        have hc := hpos.2.1
        have hc2 := totalWE_nonneg t' c hpos.2.2
        rw [calculateTotalDistanceWithElevators] at htot0
        linarith
    · rw [if_neg hif]
      rw [lastNavPoint_cons]
      exact ih b (d + segLength a b) dist hpos.2 (by linarith)

theorem samplerDivOk_of_pos :
    ∀ (rest : List NavNode) (a : NavNode) (dist d : ℝ),
      SegLengthsPos (a :: rest) → samplerDivOkAux a rest dist d := by
  intro rest
  induction rest with
  | nil =>
    intro a dist d _
    rw [samplerDivOkAux]
    trivial
  | cons b t ih =>
    intro a dist d hpos
    rw [samplerDivOkAux]
    by_cases hif : dist ≤ d + segLength a b
    · rw [if_pos hif]
      exact ne_of_gt hpos.1
    · rw [if_neg hif]
      exact ih b dist (d + segLength a b) hpos.2

/-- The single-segment example path from `[0,0]` to `[0,0.001]` on floor 0. -/
def exNodes : List NavNode := [⟨(0, 0), 0⟩, ⟨(0, 0.001), 0⟩]

theorem exNodes_segLength :
    segLength ⟨(0, 0), 0⟩ ⟨(0, 0.001), 0⟩ = 6371000 * deg2rad 0.001 := by
  rw [segLength, if_neg (by simp)]
  have hsub : (0.001 : ℝ) - 0 = 0.001 := by
    norm_num
  rw [show ((⟨(0, 0), 0⟩ : NavNode).coords) = ((0 : ℝ), (0 : ℝ)) from rfl,
    show ((⟨(0, 0.001), 0⟩ : NavNode).coords) = ((0 : ℝ), (0.001 : ℝ)) from rfl,
    calculateDistance_lat 0 0 0.001 (by rw [hsub]; exact deg2rad_milli_nonneg)
      (by rw [hsub]; exact deg2rad_milli_lt_pi), hsub]
  ring

theorem exNodes_segPos : SegLengthsPos exNodes := by
  refine ⟨?_, trivial⟩
  rw [exNodes_segLength]
  have := deg2rad_milli_pos
  linarith

/-! ## Claim C4: loop continuity at the wrap point -/

/-- C4, counterexample to the claim as stated: on the single-segment path
from `[0,0]` to `[0,0.001]`, sampling the animation at progress 1.0 gives
the far endpoint while progress 0.0 gives the start — the two samples
differ, so the loop is not continuous at the wrap point. -/
theorem sampleAtFraction_c4_counterexample :
    sampleAtFraction exNodes 1 ≠ sampleAtFraction exNodes 0 := by
  have h0 : sampleAtFraction exNodes 0 = some ⟨(0, 0), 0⟩ := by
    rw [sampleAtFraction, zero_mul]
    show some (getNavPointAux ⟨(0, 0), 0⟩ [⟨(0, 0.001), 0⟩] 0 0) =
      some ⟨(0, 0), 0⟩
    rw [getNavPointAux_zero _ _ exNodes_segPos]
    norm_num
  have h1 : sampleAtFraction exNodes 1 = some ⟨(0, 0.001), 0⟩ := by
    rw [sampleAtFraction, one_mul]
    show some (getNavPointAux ⟨(0, 0), 0⟩ [⟨(0, 0.001), 0⟩]
      (calculateTotalDistanceWithElevators exNodes) 0) = some ⟨(0, 0.001), 0⟩
    rw [getNavPointAux_end _ _ 0 _ exNodes_segPos
      (by rw [zero_add]; exact le_refl _)]
    rw [lastNavPoint]
    norm_num
  rw [h0, h1]
  intro h
  simp only [Option.some.injEq, SamplePoint.mk.injEq, Prod.mk.injEq] at h
  have := h.1.2
  norm_num at this

/-- C4 (amended): the wrap is a restart, not a continuous joint — on any
path whose animation segments all have positive length, sampling at
progress 0 yields the first node's point, sampling at progress 1.0 yields
the last node's point, and a progress above 1 is wrapped back to 0 by the
frame callback, so the loop resumes at the first node. -/
theorem sampleAtFraction_endpoints (a : NavNode) (rest : List NavNode)
    (hpos : SegLengthsPos (a :: rest)) :
    sampleAtFraction (a :: rest) 0 = some ⟨a.coords, (a.floor : ℝ)⟩ ∧
    sampleAtFraction (a :: rest) 1 = some (lastNavPoint a rest) ∧
    ∀ p : ℝ, 1 < p → sampleAtFraction (a :: rest) (wrapProgress p) =
      some ⟨a.coords, (a.floor : ℝ)⟩ := by
  have h0 : sampleAtFraction (a :: rest) 0 = some ⟨a.coords, (a.floor : ℝ)⟩ := by
    rw [sampleAtFraction, zero_mul]
    show some (getNavPointAux a rest 0 0) = some ⟨a.coords, (a.floor : ℝ)⟩
    rw [getNavPointAux_zero _ _ hpos]
  refine ⟨h0, ?_, ?_⟩
  · rw [sampleAtFraction, one_mul]
    show some (getNavPointAux a rest
      (calculateTotalDistanceWithElevators (a :: rest)) 0) =
      some (lastNavPoint a rest)
    rw [getNavPointAux_end _ _ 0 _ hpos (by rw [zero_add])]
  · intro p hp
    rw [wrapProgress, if_pos hp]
    exact h0

/-- C4 witness: the amended endpoints theorem on the concrete path
`exNodes`, with the positivity hypothesis discharged through the haversine
value of the segment. -/
theorem sampleAtFraction_endpoints_witness :
    SegLengthsPos exNodes ∧
    sampleAtFraction exNodes 0 = some ⟨(0, 0), ((0 : ℤ) : ℝ)⟩ ∧
    sampleAtFraction exNodes 1 = some (lastNavPoint ⟨(0, 0), 0⟩ [⟨(0, 0.001), 0⟩]) ∧
    sampleAtFraction exNodes (wrapProgress 2) = some ⟨(0, 0), ((0 : ℤ) : ℝ)⟩ := by
  obtain ⟨h0, h1, h2⟩ :=
    sampleAtFraction_endpoints ⟨(0, 0), 0⟩ [⟨(0, 0.001), 0⟩] exNodes_segPos
  exact ⟨exNodes_segPos, h0, h1, h2 2 (by norm_num)⟩

/-! ## Claim C10: sampler well-definedness and clamping -/

/-- The two-node path along latitude 90 whose endpoints have distinct
coordinates but zero haversine separation. -/
def poleNodes : List NavNode := [⟨(0, 90), 0⟩, ⟨(1, 90), 0⟩]

theorem atan2_zero_one : atan2 0 1 = 0 := by
  rw [atan2, if_pos one_pos, zero_div, Real.arctan_zero]

theorem pole_distance_zero :
    calculateDistance ((0 : ℝ), (90 : ℝ)) ((1 : ℝ), (90 : ℝ)) = 0 := by
  rw [calculateDistance]
  have hlat : Real.sin (deg2rad ((((1 : ℝ), (90 : ℝ))).2 -
      (((0 : ℝ), (90 : ℝ))).2) / 2) = 0 := by
    rw [show ((((1 : ℝ), (90 : ℝ))).2 - (((0 : ℝ), (90 : ℝ))).2) = 0 from
      by norm_num]
    rw [show deg2rad 0 = 0 from by rw [deg2rad]; ring]
    norm_num
  have hcos : Real.cos (deg2rad ((((0 : ℝ), (90 : ℝ))).2)) = 0 := by
    rw [show ((((0 : ℝ), (90 : ℝ))).2) = (90 : ℝ) from rfl]
    rw [show deg2rad 90 = Real.pi / 2 from by rw [deg2rad]; ring]
    exact Real.cos_pi_div_two
  rw [hlat, hcos]
  simp only [mul_zero, zero_mul, add_zero, zero_add, sub_zero]
  rw [Real.sqrt_zero, Real.sqrt_one, atan2_zero_one]
  ring

/-- C10, counterexample to the claim as stated: the two `poleNodes` lie on
the same floor and have distinct coordinates, yet their animation segment
has length zero (the haversine of two points on latitude 90 vanishes), so
the claimed "distinct coordinates, hence positive length" fails and the
sampler divides by that zero length already at distance 0. -/
theorem sampler_c10_counterexample :
    ((0 : ℝ), (90 : ℝ)) ≠ ((1 : ℝ), (90 : ℝ)) ∧
    (⟨(0, 90), 0⟩ : NavNode).floor = (⟨(1, 90), 0⟩ : NavNode).floor ∧
    segLength ⟨(0, 90), 0⟩ ⟨(1, 90), 0⟩ = 0 ∧
    ¬ samplerDivOkAux ⟨(0, 90), 0⟩ [⟨(1, 90), 0⟩] 0 0 := by
  have hseg : segLength (⟨(0, 90), 0⟩ : NavNode) ⟨(1, 90), 0⟩ = 0 := by
    rw [segLength, if_neg (by simp)]
    rw [show ((⟨(0, 90), 0⟩ : NavNode).coords) = ((0 : ℝ), (90 : ℝ)) from rfl,
      show ((⟨(1, 90), 0⟩ : NavNode).coords) = ((1 : ℝ), (90 : ℝ)) from rfl,
      pole_distance_zero]
    ring
  refine ⟨?_, rfl, hseg, ?_⟩
  · intro h
    simp only [Prod.mk.injEq] at h
    exact absurd h.1 (by norm_num)
  · rw [samplerDivOkAux, hseg, if_pos (by norm_num)]
    simp

/-- C10 (amended): with "distinct coordinates" strengthened to "every
animation segment has positive length", the sampler never divides by zero
for any requested distance, and for any distance at or beyond the total it
returns the last node's point rather than reading past the list. -/
theorem sampler_well_defined (a : NavNode) (rest : List NavNode)
    (hpos : SegLengthsPos (a :: rest)) :
    (∀ dist d : ℝ, samplerDivOkAux a rest dist d) ∧
    ∀ dist : ℝ, calculateTotalDistanceWithElevators (a :: rest) ≤ dist →
      getNavPointAtDistanceWithElevators (a :: rest) dist =
        some (lastNavPoint a rest) := by
  refine ⟨fun dist d => samplerDivOk_of_pos rest a dist d hpos, ?_⟩
  intro dist hdist
  show some (getNavPointAux a rest dist 0) = some (lastNavPoint a rest)
  rw [getNavPointAux_end rest a 0 dist hpos (by rw [zero_add]; exact hdist)]

/-- C10 witness: the amended theorem on the concrete path `exNodes`, with a
sample distance strictly beyond the total. -/
theorem sampler_well_defined_witness :
    SegLengthsPos exNodes ∧
    samplerDivOkAux ⟨(0, 0), 0⟩ [⟨(0, 0.001), 0⟩] 5 0 ∧
    getNavPointAtDistanceWithElevators exNodes
      (calculateTotalDistanceWithElevators exNodes + 1) =
      some (lastNavPoint ⟨(0, 0), 0⟩ [⟨(0, 0.001), 0⟩]) := by
  obtain ⟨hdiv, hend⟩ :=
    sampler_well_defined ⟨(0, 0), 0⟩ [⟨(0, 0.001), 0⟩] exNodes_segPos
  refine ⟨exNodes_segPos, hdiv 5 0, ?_⟩
  refine hend (calculateTotalDistanceWithElevators exNodes + 1) ?_
  show calculateTotalDistanceWithElevators exNodes ≤
    calculateTotalDistanceWithElevators exNodes + 1
  linarith

/-! ## Floor-run segmentation and vertical-transition detection
(`drawAnimatedPath`, app.js:918-954) -/

/-- A vertical-transition event `{coords, from, to}` (app.js:933-938). -/
structure VTransition where
  coords : ℝ × ℝ
  fromFloor : ℤ
  toFloor : ℤ

/-- The mutable state of the segmentation loop (app.js:919-923): the
by-floor coordinate runs, `lastTrackedFloor` (initially `-1`, the sentinel
for "no concrete floor seen yet"), `potentialElevatorCoords` (initially
`null`) and the transitions emitted so far. -/
structure SegState where
  segs : ℤ → List (ℝ × ℝ)
  lastTracked : ℤ
  pending : Option (ℝ × ℝ)
  trans : List VTransition

/-- `segments[f].push(c)`, creating the run when absent (app.js:947-952);
the explicit `{0: [], 1: [], 2: []}` initialisation coincides with the
everywhere-empty map. -/
def pushRun (segs : ℤ → List (ℝ × ℝ)) (f : ℤ) (c : ℝ × ℝ) :
    ℤ → List (ℝ × ℝ) :=
  fun x => if x = f then segs f ++ [c] else segs x

/-- One iteration of the `pathNodes.forEach` body (app.js:925-954): the
transition tracking of app.js:928-942 followed by the per-floor
segmentation of app.js:944-953.  A node's floor is always defined in the
model, so the `floor === undefined` half of the test at app.js:944 drops. -/
def segStep (st : SegState) (node : NavNode) : SegState :=
  let st1 :=
    if node.floor = -1 then { st with pending := some node.coords }
    else if st.lastTracked ≠ -1 ∧ node.floor ≠ st.lastTracked then
      { st with
        trans := st.trans ++
          [⟨st.pending.getD node.coords, st.lastTracked, node.floor⟩],
        pending := none,
        lastTracked := node.floor }
    else { st with lastTracked := node.floor }
  if node.floor = -1 then
    if st1.lastTracked ≠ -1 then
      { st1 with segs := pushRun st1.segs st1.lastTracked node.coords }
    else st1
  else { st1 with segs := pushRun st1.segs node.floor node.coords }

/-- The initial loop state (app.js:919-923). -/
def initSegState : SegState := ⟨fun _ => [], -1, none, []⟩

/-- The whole segmentation pass over a path (app.js:925-954). -/
def segmentPath (nodes : List NavNode) : SegState :=
  nodes.foldl segStep initSegState

/-- The transition tracking exactly as claim C6 words it: the shaft
coordinates come from the most recent floor = -1 node only when one
occurred *since the last concrete node*, so this variant clears the pending
coordinates at every concrete node.  State: (last concrete floor sentinel,
pending coords, events). -/
def claimTransStep (st : ℤ × Option (ℝ × ℝ) × List VTransition)
    (node : NavNode) : ℤ × Option (ℝ × ℝ) × List VTransition :=
  if node.floor = -1 then (st.1, some node.coords, st.2.2)
  else if st.1 ≠ -1 ∧ node.floor ≠ st.1 then
    (node.floor, none,
      st.2.2 ++ [⟨(st.2.1).getD node.coords, st.1, node.floor⟩])
  else (node.floor, none, st.2.2)

/-- The transition list the claim describes. -/
def claimTransitions (nodes : List NavNode) : List VTransition :=
  (nodes.foldl claimTransStep (-1, none, [])).2.2

/-- The path floor-0 → elevator(-1) → floor-0 → floor-1: a `-1` node occurs,
then a concrete node on the same floor, then the floor change. -/
def mixedPath : List NavNode :=
  [⟨(0, 0), 0⟩, ⟨(5, 5), -1⟩, ⟨(1, 1), 0⟩, ⟨(2, 2), 1⟩]

/-- C6, counterexample to the claim as stated: on `mixedPath` the code
emits the transition with the coordinates of the `-1` node seen *before*
the last concrete node (`potentialElevatorCoords` is cleared only when a
transition is emitted, app.js:939, never on passing a concrete node),
while the claim prescribes the new node's own coordinates, since no `-1`
node occurred since the last concrete node. -/
theorem segmentPath_c6_counterexample :
    (segmentPath mixedPath).trans = [⟨(5, 5), 0, 1⟩] ∧
    claimTransitions mixedPath = [⟨(2, 2), 0, 1⟩] ∧
    ((5, 5) : ℝ × ℝ) ≠ ((2, 2) : ℝ × ℝ) := by
  refine ⟨rfl, rfl, ?_⟩
  intro h
  simp only [Prod.mk.injEq] at h
  exact absurd h.1 (by norm_num)

/-- The segmentation state as the amended claim describes it, with an
explicit `Option` for "no concrete floor yet" in place of the source's
`-1` sentinel. -/
structure SpecSegView where
  runs : ℤ → List (ℝ × ℝ)
  lastConcrete : Option ℤ
  pendingShaft : Option (ℝ × ℝ)
  events : List VTransition

/-- One step of the amended description: a `-1` node records its
coordinates as the pending shaft location and joins the run of the last
concrete floor (it is dropped when no concrete floor has been seen); a
concrete node joins its own floor's run, and when its floor differs from
the last concrete floor (one existing) it emits `{coords, from, to}` whose
coordinates are the pending shaft location if any, else the node's own, and
clears the pending location — the only place it is ever cleared. -/
def specSegStep (st : SpecSegView) (node : NavNode) : SpecSegView :=
  if node.floor = -1 then
    { st with
      pendingShaft := some node.coords,
      runs := (match st.lastConcrete with
        | some f => pushRun st.runs f node.coords
        | none => st.runs) }
  else
    match st.lastConcrete with
    | some f =>
      if node.floor ≠ f then
        { runs := pushRun st.runs node.floor node.coords,
          lastConcrete := some node.floor,
          pendingShaft := none,
          events := st.events ++
            [⟨st.pendingShaft.getD node.coords, f, node.floor⟩] }
      else
        { st with
          runs := pushRun st.runs node.floor node.coords,
          lastConcrete := some node.floor }
    | none =>
      { st with
        runs := pushRun st.runs node.floor node.coords,
        lastConcrete := some node.floor }

/-- The amended description's segmentation pass. -/
def specSegments (nodes : List NavNode) : SpecSegView :=
  nodes.foldl specSegStep ⟨fun _ => [], none, none, []⟩

/-- The simulation relation between the source's sentinel-based state and
the amended description's state. -/
def SegRel (st : SegState) (sv : SpecSegView) : Prop :=
  st.segs = sv.runs ∧ st.trans = sv.events ∧ st.pending = sv.pendingShaft ∧
  ((st.lastTracked = -1 ∧ sv.lastConcrete = none) ∨
   (st.lastTracked ≠ -1 ∧ sv.lastConcrete = some st.lastTracked))

theorem segStep_rel (st : SegState) (sv : SpecSegView) (node : NavNode)
    (h : SegRel st sv) : SegRel (segStep st node) (specSegStep sv node) := by
  obtain ⟨segs0, lastT0, pend0, tr0⟩ := st
  obtain ⟨runs0, lastC0, pendS0, evs0⟩ := sv
  obtain ⟨hsegs, htrans, hpend, hlast⟩ := h
  simp only at hsegs htrans hpend hlast
  subst hsegs
  subst htrans
  subst hpend
  by_cases hf : node.floor = -1
  · rcases hlast with ⟨hl, hc⟩ | ⟨hl, hc⟩
    · subst hl
      subst hc
      simp [segStep, specSegStep, SegRel, hf]
    · subst hc
      simp [segStep, specSegStep, SegRel, hf, hl]
  · rcases hlast with ⟨hl, hc⟩ | ⟨hl, hc⟩
    · subst hl
      subst hc
      simp [segStep, specSegStep, SegRel, hf]
    · subst hc
      by_cases hd : node.floor = lastT0
      · subst hd
        simp [segStep, specSegStep, SegRel, hf]
      · simp [segStep, specSegStep, SegRel, hf, hl, hd]

theorem foldl_seg_rel (nodes : List NavNode) :
    ∀ (st : SegState) (sv : SpecSegView), SegRel st sv →
      SegRel (nodes.foldl segStep st) (nodes.foldl specSegStep sv) := by
  induction nodes with
  | nil =>
    intro st sv h
    exact h
  | cons node t ih =>
    intro st sv h
    exact ih _ _ (segStep_rel st sv node h)

/-- C6 (amended): the source's sentinel-based segmentation loop computes
exactly the amended description — every `-1` node joins the run of the last
seen concrete floor; a transition is emitted exactly when a concrete node's
floor differs from the last concrete floor (one existing), with `from`/`to`
the previous and new concrete floors and coordinates from the most recent
`-1` node seen since the last *emitted transition* (or the path start),
falling back to the new node's own coordinates. -/
theorem segmentPath_eq_spec (nodes : List NavNode) :
    (segmentPath nodes).trans = (specSegments nodes).events ∧
    (segmentPath nodes).segs = (specSegments nodes).runs := by
  have h := foldl_seg_rel nodes initSegState ⟨fun _ => [], none, none, []⟩
    ⟨rfl, rfl, rfl, Or.inl ⟨rfl, rfl⟩⟩
  exact ⟨h.2.1, h.1⟩

end Mall
